import Mathlib

/-!
Verification of the tiny-bundler core (`src/bundler.ts`) against its
natural-language specification.

Strings of the JavaScript source are embedded as `List Char`; byte buffers as
`List Nat`.  External collaborators (Bun's hasher, the Tailwind/lightningcss
chain, sharp, rolldown, prettier, the filesystem) are abstract parameters
gathered in "world" structures; everything written in the repository itself is
translated directly from the source.
-/

namespace TinyBundler

/-- JavaScript `String.prototype.split` with a single-character separator:
`"a?b".split("?") = ["a","b"]`, `"".split("?") = [""]`, separators at the ends
produce empty fields. -/
def jsSplit (sep : Char) : List Char → List (List Char)
  | [] => [[]]
  | c :: cs =>
    if c = sep then [] :: jsSplit sep cs
    else
      match jsSplit sep cs with
      | [] => [[c]]
      | h :: t => (c :: h) :: t

/-- Model of `node:path`'s `join` for the call shapes the bundler uses
(an absolute base directory joined with a relative segment, or with an
alias remainder that starts with `/`): concatenation with exactly one
separator between the parts.  The dot-segment normalisation of the real
library is not exercised by the bundler's inputs. -/
def pathJoin (a b : List Char) : List Char :=
  match b with
  | '/' :: _ => a ++ b
  | _ => a ++ ('/' :: b)

/-- Portion of a path after the last `/` (`path.parse(...).base`). -/
def basenameOf (p : List Char) : List Char :=
  ((p.reverse.takeWhile fun c => c ≠ '/')).reverse

/-- Index of the last `.` of a basename, `none` when the basename has no dot. -/
def extIdx (b : List Char) : Option Nat :=
  let afterDot := b.reverse.takeWhile fun c => c ≠ '.'
  if afterDot.length = b.length then none
  else some (b.length - afterDot.length - 1)

/-- `path.parse(...).ext` of a basename: from the last dot (inclusive), empty
when there is no dot or the only dot is the leading character (dotfiles). -/
def extOfBase (b : List Char) : List Char :=
  match extIdx b with
  | none => []
  | some i => if i = 0 then [] else b.drop i

/-- `path.parse(...).name` of a basename: everything before `ext`. -/
def nameOfBase (b : List Char) : List Char :=
  match extIdx b with
  | none => b
  | some i => if i = 0 then b else b.take i

/-- `path.extname(p)`. -/
def extnameOf (p : List Char) : List Char :=
  extOfBase (basenameOf p)

/-- The 36 digit characters used by JavaScript `Number.prototype.toString(36)`. -/
def b36chars : List Char := "0123456789abcdefghijklmnopqrstuvwxyz".toList

/-- Digit character for a value below 36. -/
def b36digit (n : Nat) : Char := b36chars.getD n '0'

/-- Base-36 digit expansion of a positive natural, most significant digit
first; `[]` for zero. -/
def toBase36Aux (n : Nat) : List Char :=
  if h : n = 0 then []
  else toBase36Aux (n / 36) ++ [b36digit (n % 36)]
termination_by n
decreasing_by exact Nat.div_lt_self (Nat.pos_of_ne_zero h) (by norm_num)

/-- JavaScript `n.toString(36)` for an unsigned value. -/
def toBase36 (n : Nat) : List Char :=
  if n = 0 then ['0'] else toBase36Aux n

/-- `generateHash` (bundler.ts line 80-82) applied to the 64-bit value
returned by the external hasher `Bun.hash`:
`Bun.hash(input).toString(36).slice(0, 8)`. -/
def generateHash (h : Nat) : List Char :=
  (toBase36 h).take 8

/-- `generateHash` as a function of the input bytes, with the external
hasher `Bun.hash` abstracted as `hashFn`. -/
def generateHashBytes (hashFn : List Nat → Nat) (b : List Nat) : List Char :=
  generateHash (hashFn b)

/-- Configuration subset used by `generateRoute`. -/
structure RouteCfg where
  cwd : List Char
  bundleDir : List Char
  assetsDir : List Char

/-- `generateRoute` (bundler.ts line 84-93): parse the resource path into
name and extension, interpolate the hash between them, and derive the output
path `cwd/bundleDir/assetsDir/outName` and public route `/assetsDir/outName`.
Returns `(route, outPath)`. -/
def generateRoute (cfg : RouteCfg) (resourcePath : List Char) (hash : List Char) :
    List Char × List Char :=
  let base := basenameOf resourcePath
  let nm := nameOfBase base
  let ex := extOfBase base
  let outName := nm ++ ('.' :: (hash ++ ex))
  let outPath := pathJoin (pathJoin (pathJoin cfg.cwd cfg.bundleDir) cfg.assetsDir) outName
  let route := '/' :: (cfg.assetsDir ++ ('/' :: outName))
  (route, outPath)

/-- The configured frontend alias (`{ find, replacement }` of bundler.ts
line 45). -/
structure AliasCfg where
  find : List Char
  replacement : List Char

/-- `resolveAlias` (bundler.ts line 61-78): split the token on `?`, require
the part before the first `?` to start with `find + "/"`, substitute the
alias root, and succeed only when the resulting path exists on disk
(`fsExists` abstracts `existsSync`).  All failures return `none`; no step of
the model can throw, which realises the source's silent `try/catch`. -/
def resolveAlias (fsExists : List Char → Bool) (cfg : AliasCfg) (input : List Char) :
    Option (List Char × Option (List Char)) :=
  let parts := jsSplit '?' input
  let al := parts.headD []
  let qs := parts[1]?
  if (cfg.find ++ ['/']) <+: al then
    let resolved := pathJoin cfg.replacement (al.drop cfg.find.length)
    if fsExists resolved then some (resolved, qs) else none
  else none

/-- Filesystem of the resolution example in the spec: exactly
`/project/frontend/assets/logo.png` exists. -/
def exResolveFs (p : List Char) : Bool :=
  p = "/project/frontend/assets/logo.png".toList

/-- Alias configuration of the resolution example: prefix `@`, root
`/project/frontend`. -/
def exResolveCfg : AliasCfg :=
  ⟨"@".toList, "/project/frontend".toList⟩

/-- C5: `resolveAlias` succeeds exactly when the part of the token before the
first `?` begins with the alias prefix followed by `/` and the substituted
path exists; on success it returns that absolute path plus the optional query;
and the three concrete vectors of the spec behave as stated. -/
theorem resolveAlias_characterization :
    (∀ (fsE : List Char → Bool) (cfg : AliasCfg) (input : List Char),
      (resolveAlias fsE cfg input).isSome = true ↔
        ((cfg.find ++ ['/']) <+: (jsSplit '?' input).headD [] ∧
          fsE (pathJoin cfg.replacement
            (((jsSplit '?' input).headD []).drop cfg.find.length)) = true)) ∧
    (∀ (fsE : List Char → Bool) (cfg : AliasCfg) (input : List Char) r,
      resolveAlias fsE cfg input = some r →
        r = (pathJoin cfg.replacement
              (((jsSplit '?' input).headD []).drop cfg.find.length),
             (jsSplit '?' input)[1]?)) ∧
    resolveAlias exResolveFs exResolveCfg ("@/assets/logo.png".toList) =
      some ("/project/frontend/assets/logo.png".toList, none) ∧
    resolveAlias exResolveFs exResolveCfg ("other/assets/logo.png".toList) = none ∧
    resolveAlias exResolveFs exResolveCfg ("@/missing.png".toList) = none := by
  refine ⟨?_, ?_, by decide, by decide, by decide⟩
  · intro fsE cfg input
    simp only [resolveAlias]
    split_ifs with hp hf
    · exact iff_of_true rfl ⟨hp, hf⟩
    · exact iff_of_false (by simp) fun h => hf h.2
    · exact iff_of_false (by simp) fun h => hp h.1
  · intro fsE cfg input r h
    simp only [resolveAlias] at h
    split_ifs at h with hp hf
    · exact (Option.some.inj h).symm

/-- Witness: the characterization applied at the spec's concrete success
vector. -/
theorem resolveAlias_characterization_witness :
    (resolveAlias exResolveFs exResolveCfg ("@/assets/logo.png".toList)).isSome = true := by
  exact (resolveAlias_characterization.1 exResolveFs exResolveCfg
    ("@/assets/logo.png".toList)).mpr (by decide)

/-- Digit count of the base-36 expansion of a positive value: at most `k`
digits exactly when the value is below `36 ^ k`. -/
theorem toBase36Aux_length_le_iff :
    ∀ (k n : Nat), 0 < n → ((toBase36Aux n).length ≤ k ↔ n < 36 ^ k) := by
  intro k
  induction k with
  | zero =>
    intro n hn
    have hne : n ≠ 0 := Nat.pos_iff_ne_zero.mp hn
    rw [toBase36Aux, dif_neg hne, List.length_append, List.length_singleton]
    exact iff_of_false (by omega) (by rw [pow_zero]; omega)
  | succ k ih =>
    intro n hn
    have hne : n ≠ 0 := Nat.pos_iff_ne_zero.mp hn
    rw [toBase36Aux, dif_neg hne, List.length_append, List.length_singleton]
    by_cases hq : n / 36 = 0
    · have h36 : n < 36 := by
        have h' := (Nat.div_eq_zero_iff (by norm_num : 0 < 36)).mp hq
        exact h'
      have h0 : toBase36Aux 0 = [] := by rw [toBase36Aux]; simp
      rw [hq, h0, List.length_nil]
      refine iff_of_true (by omega) (lt_of_lt_of_le h36 ?_)
      calc (36 : Nat) = 36 ^ 1 := (pow_one 36).symm
        _ ≤ 36 ^ (k + 1) := Nat.pow_le_pow_right (by norm_num) (by omega)
    · have hq' : 0 < n / 36 := Nat.pos_of_ne_zero hq
      have hdiv : n / 36 < 36 ^ k ↔ n < 36 ^ (k + 1) := by
        rw [Nat.div_lt_iff_lt_mul (by norm_num : (0:Nat) < 36), ← pow_succ]
      rw [Nat.add_le_add_iff_right, ih (n / 36) hq', hdiv]

/-- Every character of the base-36 expansion is one of the 36 digit
characters. -/
theorem toBase36Aux_mem_b36chars (n : Nat) : ∀ c ∈ toBase36Aux n, c ∈ b36chars := by
  induction n using Nat.strong_induction_on with
  | _ n ih =>
    rw [toBase36Aux]
    split_ifs with h
    · simp
    · intro c hc
      rw [List.mem_append] at hc
      rcases hc with hc | hc
      · exact ih (n / 36) (Nat.div_lt_self (Nat.pos_of_ne_zero h) (by norm_num)) c hc
      · rw [List.mem_singleton] at hc
        subst hc
        have hlt : n % 36 < b36chars.length := by
          have hm : n % 36 < 36 := Nat.mod_lt _ (by norm_num)
          have hl : b36chars.length = 36 := by decide
          omega
        unfold b36digit
        rw [List.getD_eq_getElem _ _ hlt]
        exact List.getElem_mem hlt

/-- C2 (amended): `generateHash` is a deterministic base-36 digest of at most
8 characters, exactly 8 whenever the 64-bit hash value is at least `36 ^ 7`;
`generateRoute` is identical across repeated invocations on the same bytes;
and distinct digests produce distinct routes for the same logical name. -/
theorem hash_route_properties :
    (∀ h : Nat, (generateHash h).length ≤ 8) ∧
    (∀ h : Nat, 36 ^ 7 ≤ h → (generateHash h).length = 8) ∧
    (∀ h : Nat, ∀ c ∈ generateHash h, c ∈ b36chars) ∧
    (∀ (hashFn : List Nat → Nat) (cfg : RouteCfg) (p : List Char) (b1 b2 : List Nat),
      b1 = b2 → generateRoute cfg p (generateHashBytes hashFn b1) =
        generateRoute cfg p (generateHashBytes hashFn b2)) ∧
    (∀ (cfg : RouteCfg) (p h1 h2 : List Char),
      h1 ≠ h2 → (generateRoute cfg p h1).1 ≠ (generateRoute cfg p h2).1) := by
  refine ⟨?_, ?_, ?_, ?_, ?_⟩
  · intro h
    unfold generateHash
    rw [List.length_take]
    exact min_le_left _ _
  · intro h hle
    have hpos : 0 < h := lt_of_lt_of_le (by positivity) hle
    have hne : h ≠ 0 := Nat.pos_iff_ne_zero.mp hpos
    unfold generateHash toBase36
    rw [if_neg hne, List.length_take]
    have h8 : ¬ ((toBase36Aux h).length ≤ 7) := by
      rw [toBase36Aux_length_le_iff 7 h hpos]
      omega
    omega
  · intro h c hc
    unfold generateHash at hc
    have hc' : c ∈ toBase36 h := List.mem_of_mem_take hc
    unfold toBase36 at hc'
    split_ifs at hc' with h0
    · simp at hc'
      subst hc'
      decide
    · exact toBase36Aux_mem_b36chars h c hc'
  · intro hashFn cfg p b1 b2 hb
    subst hb
    rfl
  · intro cfg p h1 h2 hne heq
    apply hne
    simp only [generateRoute] at heq
    injection heq with _ heq
    have heq := List.append_cancel_left heq
    injection heq with _ heq
    have heq := List.append_cancel_left heq
    injection heq with _ heq
    exact List.append_cancel_right heq

/-- Witness: the width clause of `hash_route_properties` applied at the
concrete hash value `36 ^ 7`. -/
theorem hash_route_properties_witness :
    36 ^ 7 ≤ 36 ^ 7 ∧ (generateHash (36 ^ 7)).length = 8 :=
  ⟨le_refl _, hash_route_properties.2.1 (36 ^ 7) (le_refl _)⟩

/-- C2 counterexample: the digest is not fixed-width.  With the abstract
hasher returning the 64-bit value 0 (`Bun.hash` is an external collaborator,
every 64-bit output is admissible), the digest of any byte sequence is the
single character `0`, not 8 characters. -/
theorem hash_width_not_fixed :
    generateHashBytes (fun _ => 0) [] = ['0'] ∧
    (generateHashBytes (fun _ => 0) []).length ≠ 8 := by
  exact ⟨by decide, by decide⟩

/-- JavaScript `String.prototype.replaceAll` with a plain-string pattern,
written with explicit recursion fuel (every step consumes at least one
character, so `fuel = s.length` always suffices): scan left to right, replace
each non-overlapping occurrence of `k` by `v`, never rescan the replacement.
The bundler's patterns — scanned alias tokens and the literal closing head
tag — are never empty; in the unreachable empty-pattern case the model keeps
the text unchanged. -/
def replaceAllGo (k v : List Char) : Nat → List Char → List Char
  | 0, s => s
  | fuel + 1, s =>
    if k = [] then s
    else if k <+: s then v ++ replaceAllGo k v fuel (s.drop k.length)
    else
      match s with
      | [] => []
      | c :: s' => c :: replaceAllGo k v fuel s'

/-- `text.replaceAll(k, v)`. -/
def replaceAllL (k v s : List Char) : List Char :=
  replaceAllGo k v s.length s

/-- One substitution pass over a text blob (bundler.ts lines 395-397 for
markup, 148-150 for CSS output, 236-238 for the transform hook): for each
table entry in insertion order, replace every occurrence of the key by its
value. -/
def substituteL (tbl : List (List Char × List Char)) (s : List Char) : List Char :=
  tbl.foldl (fun acc p => replaceAllL p.1 p.2 acc) s

/-- Non-interference of a key `k` with a replacement value `v`: `k` does not
occur inside `v`, `v` does not occur inside `k`, no nonempty suffix of `v` is
a prefix of `k`, and no nonempty proper suffix of `k` is a prefix of `v`.
Under these conditions writing `v` into a text can neither contain nor help
recreate an occurrence of `k`. -/
def NonInterfering (k v : List Char) : Prop :=
  ¬ (k <:+: v) ∧ ¬ (v <:+: k) ∧
  (∀ t ∈ v.tails, t ≠ [] → ¬ (t <+: k)) ∧
  (∀ u ∈ k.tails, u ≠ [] → u ≠ k → ¬ (u <+: v))

instance (k v : List Char) : Decidable (NonInterfering k v) := by
  unfold NonInterfering
  exact inferInstance

/-- Split of a prefix of an appended list: it is a prefix of the left part or
extends the whole left part into the right one. -/
theorem prefAppendCases {k a b : List Char} (h : k <+: a ++ b) :
    k <+: a ∨ ∃ k2, k = a ++ k2 ∧ k2 <+: b := by
  induction a generalizing k with
  | nil => exact Or.inr ⟨k, rfl, by simpa using h⟩
  | cons c a' ih =>
    cases k with
    | nil => exact Or.inl ⟨c :: a', rfl⟩
    | cons d k' =>
      rw [List.cons_append] at h
      have hdc := List.cons_prefix_cons.mp h
      rcases ih hdc.2 with h1 | ⟨k2, hk2, hk2p⟩
      · exact Or.inl (List.cons_prefix_cons.mpr ⟨hdc.1, h1⟩)
      · refine Or.inr ⟨k2, ?_, hk2p⟩
        rw [List.cons_append, hdc.1, hk2]

/-- Split of a factor of an appended list: it lies in the left part, in the
right part, or straddles the boundary as a nonempty suffix of the left part
glued to a nonempty prefix of the right part. -/
theorem infAppendCases {k a b : List Char} (h : k <:+: a ++ b) :
    k <:+: a ∨ k <:+: b ∨
      ∃ k1 k2, k = k1 ++ k2 ∧ k1 ≠ [] ∧ k2 ≠ [] ∧ k1 <:+ a ∧ k2 <+: b := by
  induction a with
  | nil => exact Or.inr (Or.inl (by simpa using h))
  | cons c a' ih =>
    rw [List.cons_append, List.infix_cons_iff] at h
    rcases h with h | h
    · cases k with
      | nil => exact Or.inl ⟨[], c :: a', by simp⟩
      | cons d k' =>
        have hdc := List.cons_prefix_cons.mp h
        rcases prefAppendCases hdc.2 with h1 | ⟨k2, hk2, hk2p⟩
        · exact Or.inl (List.cons_prefix_cons.mpr ⟨hdc.1, h1⟩).isInfix
        · by_cases hk2e : k2 = []
          · subst hk2e
            rw [List.append_nil] at hk2
            refine Or.inl ?_
            rw [hdc.1, hk2]
          · refine Or.inr (Or.inr ⟨c :: a', k2, ?_, by simp, hk2e, ⟨[], rfl⟩, hk2p⟩)
            rw [List.cons_append, hdc.1, hk2]
    · rcases ih h with h1 | h1 | ⟨k1, k2, hsplit, hne1, hne2, hsuf, hprek2⟩
      · exact Or.inl (List.infix_cons h1)
      · exact Or.inr (Or.inl h1)
      · obtain ⟨w, hw⟩ := hsuf
        exact Or.inr (Or.inr ⟨k1, k2, hsplit, hne1, hne2,
          ⟨c :: w, by rw [List.cons_append, hw]⟩, hprek2⟩)

/-- Suffix-of-key propagation: under non-interference of `k` with the written
value, a nonempty suffix of `k` that prefixes the output of a replacement
pass already prefixes its input — a replacement can never contribute the
beginning of an occurrence of `k`. -/
theorem replaceAllGo_propagate {k v' : List Char} (hni : NonInterfering k v') :
    ∀ (fuel : Nat) (s k' u : List Char), s.length ≤ fuel → u <:+ k → u ≠ [] →
      u <+: replaceAllGo k' v' fuel s → u <+: s := by
  intro fuel
  induction fuel with
  | zero => intro s k' u _ _ _ hp; exact hp
  | succ fuel ih =>
    intro s k' u hl hsuf hne hp
    by_cases hk' : k' = []
    · simp only [replaceAllGo, if_pos hk'] at hp
      exact hp
    by_cases hpre : k' <+: s
    · simp only [replaceAllGo, if_neg hk', if_pos hpre] at hp
      rcases prefAppendCases hp with hcase | ⟨u2, hu2, _⟩
      · by_cases huk : u = k
        · subst huk
          exact absurd hcase.isInfix hni.1
        · exact absurd hcase (hni.2.2.2 u ((List.mem_tails _ _).mpr hsuf) hne huk)
      · obtain ⟨w, hw⟩ := hsuf
        have hvinf : v' <:+: k := ⟨w, u2, by rw [← hw, hu2, List.append_assoc]⟩
        exact absurd hvinf hni.2.1
    · cases s with
      | nil =>
        simp only [replaceAllGo, if_neg hk', if_neg hpre] at hp
        exact hp
      | cons c s' =>
        simp only [replaceAllGo, if_neg hk', if_neg hpre] at hp
        cases u with
        | nil => exact absurd rfl hne
        | cons d u' =>
          have hdc := List.cons_prefix_cons.mp hp
          have hl' : s'.length ≤ fuel := by
            simp only [List.length_cons] at hl
            omega
          by_cases hu' : u' = []
          · subst hu'
            rw [hdc.1]
            exact ⟨s', rfl⟩
          · have hsuf' : u' <:+ k := (List.suffix_cons d u').trans hsuf
            have hr := ih s' k' u' hl' hsuf' hu' hdc.2
            exact List.cons_prefix_cons.mpr ⟨hdc.1, hr⟩

/-- Elimination: under non-interference of a nonempty key `k` with its own
value, the output of `replaceAll(k, v)` contains no occurrence of `k`. -/
theorem replaceAllGo_no_key {k v : List Char} (hni : NonInterfering k v) (hk : k ≠ []) :
    ∀ (fuel : Nat) (s : List Char), s.length ≤ fuel →
      ¬ (k <:+: replaceAllGo k v fuel s) := by
  intro fuel
  induction fuel with
  | zero =>
    intro s hl hinf
    have hs : s = [] := List.length_eq_zero.mp (Nat.le_zero.mp hl)
    subst hs
    exact hk (List.infix_nil.mp hinf)
  | succ fuel ih =>
    intro s hl hinf
    by_cases hpre : k <+: s
    · simp only [replaceAllGo, if_neg hk, if_pos hpre] at hinf
      rcases infAppendCases hinf with h | h | ⟨k1, k2, hsplit, hne1, _, hsuf, _⟩
      · exact hni.1 h
      · have hdl : (s.drop k.length).length ≤ fuel := by
          have h1 : 0 < k.length := List.length_pos.mpr hk
          simp only [List.length_drop]
          omega
        exact ih (s.drop k.length) hdl h
      · exact hni.2.2.1 k1 ((List.mem_tails _ _).mpr hsuf) hne1 ⟨k2, hsplit.symm⟩
    · cases s with
      | nil =>
        simp only [replaceAllGo, if_neg hk, if_neg hpre] at hinf
        exact hk (List.infix_nil.mp hinf)
      | cons c s' =>
        simp only [replaceAllGo, if_neg hk, if_neg hpre] at hinf
        rw [List.infix_cons_iff] at hinf
        have hl' : s'.length ≤ fuel := by
          simp only [List.length_cons] at hl
          omega
        rcases hinf with hinf | hinf
        · cases k with
          | nil => exact hk rfl
          | cons d k' =>
            have hdc := List.cons_prefix_cons.mp hinf
            by_cases hk' : k' = []
            · subst hk'
              refine hpre ?_
              rw [hdc.1]
              exact ⟨s', rfl⟩
            · have hpp := replaceAllGo_propagate hni fuel s' (d :: k') k' hl'
                (List.suffix_cons d k') hk' hdc.2
              exact hpre (List.cons_prefix_cons.mpr ⟨hdc.1, hpp⟩)
        · exact ih s' hl' hinf

/-- Preservation: a replacement pass for any pattern whatsoever, writing a
value that does not interfere with `k`, cannot create an occurrence of `k`
where none existed. -/
theorem replaceAllGo_preserve {k v' : List Char} (hni : NonInterfering k v') (hk : k ≠ []) :
    ∀ (fuel : Nat) (s k'' : List Char), s.length ≤ fuel → ¬ (k <:+: s) →
      ¬ (k <:+: replaceAllGo k'' v' fuel s) := by
  intro fuel
  induction fuel with
  | zero => intro s k'' _ hno hinf; exact hno hinf
  | succ fuel ih =>
    intro s k'' hl hno hinf
    by_cases hk'' : k'' = []
    · simp only [replaceAllGo, if_pos hk''] at hinf
      exact hno hinf
    by_cases hpre : k'' <+: s
    · simp only [replaceAllGo, if_neg hk'', if_pos hpre] at hinf
      rcases infAppendCases hinf with h | h | ⟨k1, k2, hsplit, hne1, _, hsuf, _⟩
      · exact hni.1 h
      · have hdl : (s.drop k''.length).length ≤ fuel := by
          have h1 : 0 < k''.length := List.length_pos.mpr hk''
          simp only [List.length_drop]
          omega
        have hnod : ¬ (k <:+: s.drop k''.length) := fun hx =>
          hno (hx.trans (List.drop_suffix k''.length s).isInfix)
        exact ih (s.drop k''.length) k'' hdl hnod h
      · exact hni.2.2.1 k1 ((List.mem_tails _ _).mpr hsuf) hne1 ⟨k2, hsplit.symm⟩
    · cases s with
      | nil =>
        simp only [replaceAllGo, if_neg hk'', if_neg hpre] at hinf
        exact hno hinf
      | cons c s' =>
        simp only [replaceAllGo, if_neg hk'', if_neg hpre] at hinf
        rw [List.infix_cons_iff] at hinf
        have hl' : s'.length ≤ fuel := by
          simp only [List.length_cons] at hl
          omega
        rcases hinf with hinf | hinf
        · cases k with
          | nil => exact hk rfl
          | cons d k' =>
            have hdc := List.cons_prefix_cons.mp hinf
            by_cases hk' : k' = []
            · subst hk'
              refine hno (List.infix_cons_iff.mpr (Or.inl ?_))
              rw [hdc.1]
              exact ⟨s', rfl⟩
            · have hpp := replaceAllGo_propagate hni fuel s' k'' k' hl'
                (List.suffix_cons d k') hk' hdc.2
              exact hno (List.infix_cons_iff.mpr
                (Or.inl (List.cons_prefix_cons.mpr ⟨hdc.1, hpp⟩)))
        · have hnod : ¬ (k <:+: s') := fun hx => hno (List.infix_cons hx)
          exact ih s' k'' hl' hnod hinf

/-- `replaceAll(k, v)` erases every occurrence of its own nonempty,
non-interfering key. -/
theorem replaceAll_no_key {k v : List Char} (hni : NonInterfering k v) (hk : k ≠ [])
    (s : List Char) : ¬ (k <:+: replaceAllL k v s) :=
  replaceAllGo_no_key hni hk s.length s le_rfl

/-- `replaceAll` for any other pattern preserves the absence of a
non-interfering key. -/
theorem replaceAll_preserve {k v' : List Char} (hni : NonInterfering k v') (hk : k ≠ [])
    (k'' s : List Char) (h : ¬ (k <:+: s)) : ¬ (k <:+: replaceAllL k'' v' s) :=
  replaceAllGo_preserve hni hk s.length s k'' le_rfl h

/-- A whole substitution pass preserves the absence of a key that does not
interfere with any written value. -/
theorem substituteL_preserve {k : List Char} (hk : k ≠ []) :
    ∀ (tbl : List (List Char × List Char)) (s : List Char),
      (∀ q ∈ tbl, NonInterfering k q.2) → ¬ (k <:+: s) →
      ¬ (k <:+: substituteL tbl s) := by
  intro tbl
  induction tbl with
  | nil => intro s _ h; exact h
  | cons q rest ih =>
    intro s hq h
    have h1 : ¬ (k <:+: replaceAllL q.1 q.2 s) :=
      replaceAll_preserve (hq q (List.mem_cons_self q rest)) hk q.1 s h
    exact ih (replaceAllL q.1 q.2 s) (fun r hr => hq r (List.mem_cons_of_mem q hr)) h1

/-- Substitution table refuting the unconditional claim: the second entry's
value contains the first entry's key, and substitution follows insertion
order. -/
def cxTbl : List (List Char × List Char) :=
  [("@/a".toList, "/r1".toList), ("@/b".toList, "z@/a".toList)]

/-- Distinct literal keys that overlap inside the text but not in any value:
the table satisfies the non-interference proviso, yet the two replacement
orders give different outputs. -/
def cxTbl2 : List (List Char × List Char) :=
  [("ab".toList, "X".toList), ("bc".toList, "Y".toList)]

/-- JavaScript `String.prototype.replace` with a plain-string pattern: only
the first occurrence is replaced; the empty pattern matches at the start of
the text.  Written with recursion fuel; `fuel = s.length` suffices. -/
def replaceFirstGo (k v : List Char) : Nat → List Char → List Char
  | 0, s => s
  | fuel + 1, s =>
    if k = [] then v ++ s
    else if k <+: s then v ++ s.drop k.length
    else
      match s with
      | [] => []
      | c :: s' => c :: replaceFirstGo k v fuel s'

/-- `text.replace(k, v)`. -/
def replaceFirstL (k v s : List Char) : List Char :=
  replaceFirstGo k v s.length s

/-- The double-quote character. -/
def dq : Char := '"'

/-- The single-quote character. -/
def sq : Char := Char.ofNat 39

/-- Quote alternatives of the resource regex character classes. -/
def isQuoteCh (c : Char) : Bool := c == dq || c == sq

/-- `s.includes(pat)` for strings. -/
def strIncludes (s pat : List Char) : Bool := decide (pat <:+: s)

/-- One attempted match of `resourceRegex` right after an opening quote: the
text must continue with `find ++ "/"`, then one or more characters other
than quotes and `*` (the greedy class `[^"'*]+`), then a closing quote of
either kind.  Returns the captured token, the closing quote and the
remaining input. -/
def tryToken (find : List Char) (rest : List Char) :
    Option (List Char × Char × List Char) :=
  if (find ++ ['/']) <+: rest then
    let after := rest.drop (find.length + 1)
    let run := after.takeWhile fun c => !(isQuoteCh c || c == '*')
    let rest' := after.drop run.length
    if run = [] then none
    else
      match rest' with
      | [] => none
      | c2 :: rest'' => if isQuoteCh c2 then some (find ++ ('/' :: run), c2, rest'') else none
  else none

/-- `text.matchAll(resourceRegex)` for the regex of bundler.ts line 47:
all matches of `["'](find/[^"'*]+)["']`, scanned left to right and
non-overlapping, continuing after each full match; for each match the pair
(full match, captured token) is produced.  Written with recursion fuel; every
step consumes at least one character, so `fuel = text.length` suffices. -/
def scanGo (find : List Char) : Nat → List Char → List (List Char × List Char)
  | 0, _ => []
  | _ + 1, [] => []
  | fuel + 1, c :: rest =>
    if isQuoteCh c then
      match tryToken find rest with
      | some (tok, c2, rest') => (c :: (tok ++ [c2]), tok) :: scanGo find fuel rest'
      | none => scanGo find fuel rest
    else scanGo find fuel rest

/-- All resource-reference matches of a text blob. -/
def scanTokens (find : List Char) (text : List Char) : List (List Char × List Char) :=
  scanGo find text.length text

/-- Content written to disk: raw bytes (images, chunk maps) or text (CSS,
HTML, transient modules). -/
inductive FData
  | bin (bytes : List Nat)
  | txt (text : List Char)
deriving DecidableEq

/-- JavaScript truthiness of the `data` value at bundler.ts line 187:
buffers are truthy, a string is truthy exactly when nonempty. -/
def dataTruthy : FData → Bool
  | .bin _ => true
  | .txt s => !s.isEmpty

/-- Observable build events of one `bundle()` invocation, in program order:
recursive directory removals, artifact writes, the underlying processing
work for a token passing the memoization check, and each substitution pass
(over CSS output, over a transform-hook module, or over rendered markup)
together with the ReplacementTable it ran against. -/
inductive BEv
  | clearDir (p : List Char)
  | writeF (p : List Char) (d : FData)
  | work (tok : List Char)
  | substCss (tbl : List (List Char × List Char))
  | substHook (tbl : List (List Char × List Char))
  | substMarkup (tbl : List (List Char × List Char))
deriving DecidableEq

/-- Per-build state: the ReplacementTable (`replacers`, an insertion-ordered
map) and the event trace. -/
structure BSt where
  replacers : List (List Char × List Char)
  trace : List BEv
deriving DecidableEq

/-- JavaScript `Map.prototype.has` on an insertion-ordered association
list. -/
def mapHas (m : List (List Char × List Char)) (k : List Char) : Bool :=
  m.any fun p => p.1 == k

/-- JavaScript `Map.prototype.set`: overwrite in place when the key exists,
append otherwise. -/
def mapSet (m : List (List Char × List Char)) (k v : List Char) :
    List (List Char × List Char) :=
  if mapHas m k then m.map fun p => if p.1 == k then (k, v) else p
  else m ++ [(k, v)]

/-- JavaScript whitespace code points trimmed by `Number()` (ECMAScript
`StrWhiteSpace`: WhiteSpace and LineTerminator). -/
def jsWsCodes : List Nat :=
  [9, 10, 11, 12, 13, 32, 160, 0x1680, 0x2000, 0x2001, 0x2002, 0x2003, 0x2004,
   0x2005, 0x2006, 0x2007, 0x2008, 0x2009, 0x200A, 0x2028, 0x2029, 0x202F,
   0x205F, 0x3000, 0xFEFF]

/-- Whitespace test for the trimming done by `Number()`. -/
def isJsWs (c : Char) : Bool := jsWsCodes.contains c.toNat

/-- Strip leading and trailing JavaScript whitespace. -/
def trimJs (s : List Char) : List Char :=
  ((s.dropWhile isJsWs).reverse.dropWhile isJsWs).reverse

/-- Digit value in a radix, for the `0x`/`0o`/`0b` integer literals. -/
def digitVal? (radix : Nat) (c : Char) : Option Nat :=
  let n := c.toNat
  let v :=
    if 48 ≤ n ∧ n ≤ 57 then some (n - 48)
    else if 97 ≤ n ∧ n ≤ 102 then some (n - 87)
    else if 65 ≤ n ∧ n ≤ 70 then some (n - 55)
    else none
  match v with
  | some d => if d < radix then some d else none
  | none => none

/-- Value of a digit string in a radix; `none` when the string is empty or a
character is not a digit of the radix. -/
def radixVal? (radix : Nat) (ds : List Char) : Option Nat :=
  if ds.isEmpty then none
  else ds.foldl (fun a c => match a, digitVal? radix c with
    | some x, some d => some (x * radix + d)
    | _, _ => none) (some 0)

/-- Decimal value of a digit string. -/
def decValNat (ds : List Char) : Nat :=
  ds.foldl (fun a c => a * 10 + (c.toNat - 48)) 0

/-- The result of JavaScript `Number()`: NaN, an infinity, or a finite
value.  A finite value is kept as an exact rational: IEEE-754 rounding of a
nonzero in-range magnitude yields a nonzero finite double again, so the
truthiness guard and the classification seen by the abstract collaborators
are unchanged. -/
inductive JsNum where
  | nan : JsNum
  | posInf : JsNum
  | negInf : JsNum
  | fin : ℚ → JsNum
deriving DecidableEq

/-- Embedding of a natural number into ℚ (written with `mkRat` so that it
evaluates). -/
def qOfNat (n : Nat) : ℚ := mkRat (Int.ofNat n) 1

/-- Value of a signed decimal mantissa `mant` scaled by `10^k`, as one
`mkRat`. -/
def qOfDec (neg : Bool) (mant : Nat) (k : Int) : ℚ :=
  let sn : Int := if neg then -(Int.ofNat mant) else Int.ofNat mant
  if 0 ≤ k then mkRat (sn * Int.ofNat (10 ^ k.toNat)) 1
  else mkRat sn (10 ^ (-k).toNat)

/-- The double-overflow threshold `2^1024 - 2^970`: magnitudes at or beyond
it round to an infinity. -/
def dblMax : ℚ := mkRat 179769313486231580793728971405303415079934132710037826936173778980444968292764750946649017977587207096330286416692887910946555547851940402630657488671505820681908902000708383676273854845817711531764475730270069855571366959622842914819860834936475292719074168444365510704342711559699508093042880177904174497792 1

/-- The negated overflow threshold. -/
def dblMaxNeg : ℚ := mkRat (-179769313486231580793728971405303415079934132710037826936173778980444968292764750946649017977587207096330286416692887910946555547851940402630657488671505820681908902000708383676273854845817711531764475730270069855571366959622842914819860834936475292719074168444365510704342711559699508093042880177904174497792) 1

/-- Half the smallest subnormal double, `2^-1075`: magnitudes at or below it
round to zero (ties to even). -/
def dblMinHalfUlp : ℚ := mkRat 1 404804506614621236704990693437834614099113299528284236713802716054860679135990693783920767402874248990374155728633623822779617474771586953734026799881477019843034848553132722728933815484186432682479535356945490137124014966849385397236206711298319112681620113024717539104666829230461005064372655017292012526615415482186989568

/-- Conversion of an exact rational to the double range: overflow to the
infinities, underflow to zero, and any other nonzero magnitude stays a
nonzero finite value. -/
def roundDouble (q : ℚ) : JsNum :=
  if q = 0 then .fin 0
  else if dblMax ≤ q then .posInf
  else if q ≤ dblMaxNeg then .negInf
  else if |q| ≤ dblMinHalfUlp then .fin 0
  else .fin q

/-- The optional `ExponentPart` at the end of a decimal literal: empty means
exponent 0, `e`/`E` with an optionally signed nonempty digit string is that
exponent, anything else fails. -/
def expTail? (r : List Char) : Option Int :=
  match r with
  | [] => some 0
  | c :: r2 =>
    if c = 'e' ∨ c = 'E' then
      match r2 with
      | '+' :: ds => if !ds.isEmpty && ds.all Char.isDigit
          then some (decValNat ds : Int) else none
      | '-' :: ds => if !ds.isEmpty && ds.all Char.isDigit
          then some (-(decValNat ds : Int)) else none
      | ds => if !ds.isEmpty && ds.all Char.isDigit
          then some (decValNat ds : Int) else none
    else none

/-- `StrUnsignedDecimalLiteral` without the `Infinity` production: digits
with an optional fraction and exponent, as mantissa digits plus a decimal
scale; `none` is NaN. -/
def parseDec? (t : List Char) : Option (Nat × Int) :=
  let ds := t.takeWhile Char.isDigit
  let r1 := t.drop ds.length
  match r1 with
  | '.' :: r2 =>
    let fs := r2.takeWhile Char.isDigit
    let r3 := r2.drop fs.length
    if ds.isEmpty && fs.isEmpty then none
    else (expTail? r3).map fun e => (decValNat (ds ++ fs), e - fs.length)
  | _ =>
    if ds.isEmpty then none
    else (expTail? r1).map fun e => (decValNat ds, e)

/-- Part of a `StringNumericLiteral` after an optional sign: `Infinity` or a
decimal literal, rounded to the double range. -/
def strUnsigned (neg : Bool) (r : List Char) : JsNum :=
  if r = "Infinity".toList then (if neg then .negInf else .posInf)
  else
    match parseDec? r with
    | some (mant, k) => roundDouble (qOfDec neg mant k)
    | none => .nan

/-- A `0x`/`0o`/`0b` non-decimal integer literal body (signs are not
allowed before these). -/
def strRadix (radix : Nat) (r : List Char) : JsNum :=
  match radixVal? radix r with
  | some n => roundDouble (qOfNat n)
  | none => .nan

/-- ECMAScript `StringNumericLiteral` after trimming: the empty string is 0,
a non-decimal integer literal, or an optionally signed decimal literal or
`Infinity`; everything else is NaN. -/
def strNum : List Char → JsNum
  | [] => .fin 0
  | '+' :: r => strUnsigned false r
  | '-' :: r => strUnsigned true r
  | '0' :: c :: r =>
    if c = 'x' ∨ c = 'X' then strRadix 16 r
    else if c = 'o' ∨ c = 'O' then strRadix 8 r
    else if c = 'b' ∨ c = 'B' then strRadix 2 r
    else strUnsigned false ('0' :: c :: r)
  | t => strUnsigned false t

/-- JavaScript `Number(x)` on a `get("w")` result: `Number(null) = 0` for an
absent parameter, otherwise the `StringNumericLiteral` conversion of the
whitespace-trimmed value. -/
def jsNumber : Option (List Char) → JsNum
  | none => .fin 0
  | some s => strNum (trimJs s)

/-- JavaScript truthiness of a number: NaN and zero are falsy. -/
def jsTruthy : JsNum → Bool
  | .nan => false
  | .posInf => true
  | .negInf => true
  | .fin q => if q = 0 then false else true

/-- `Number.isNaN`. -/
def jsIsNaN : JsNum → Bool
  | .nan => true
  | _ => false

/-- UTF-8 encoding of one character. -/
def utf8Encode (c : Char) : List Nat :=
  let n := c.toNat
  if n < 0x80 then [n]
  else if n < 0x800 then [0xC0 + n / 0x40, 0x80 + n % 0x40]
  else if n < 0x10000 then
    [0xE0 + n / 0x1000, 0x80 + (n / 0x40) % 0x40, 0x80 + n % 0x40]
  else
    [0xF0 + n / 0x40000, 0x80 + (n / 0x1000) % 0x40, 0x80 + (n / 0x40) % 0x40,
     0x80 + n % 0x40]

/-- UTF-8 encoding of a string. -/
def strToBytes (s : List Char) : List Nat :=
  s.foldr (fun c acc => utf8Encode c ++ acc) []

/-- Hex value of one byte character, for percent-decoding. -/
def hexVal? (b : Nat) : Option Nat :=
  if 48 ≤ b ∧ b ≤ 57 then some (b - 48)
  else if 97 ≤ b ∧ b ≤ 102 then some (b - 87)
  else if 65 ≤ b ∧ b ≤ 70 then some (b - 55)
  else none

/-- Percent-decoding on bytes, with recursion fuel (`fuel = length`
suffices): `%XY` with two hex digits becomes one byte, anything else is
copied and an invalid `%` stays literal. -/
def pctDecodeGo : Nat → List Nat → List Nat
  | 0, bs => bs
  | _ + 1, [] => []
  | fuel + 1, 0x25 :: r =>
    match r with
    | a :: b :: r2 =>
      match hexVal? a, hexVal? b with
      | some x, some y => (x * 16 + y) :: pctDecodeGo fuel r2
      | _, _ => 0x25 :: pctDecodeGo fuel r
    | _ => 0x25 :: pctDecodeGo fuel r
  | fuel + 1, b :: r => b :: pctDecodeGo fuel r

/-- Percent-decode a byte sequence. -/
def pctDecode (bs : List Nat) : List Nat := pctDecodeGo bs.length bs

/-- In application/x-www-form-urlencoded data `+` denotes a space. -/
def plusToSpace (bs : List Nat) : List Nat :=
  bs.map fun b => if b = 0x2B then 0x20 else b

/-- The replacement character emitted for invalid UTF-8. -/
def replChar : Char := Char.ofNat 0xFFFD

/-- UTF-8 decoding with U+FFFD replacement for invalid sequences (the WHATWG
decoder: an invalid continuation byte is reprocessed as a new lead), with
recursion fuel; `fuel = length` suffices. -/
def utf8DecodeGo : Nat → List Nat → List Char
  | 0, _ => []
  | _ + 1, [] => []
  | fuel + 1, b :: r =>
    if b < 0x80 then Char.ofNat b :: utf8DecodeGo fuel r
    else if 0xC2 ≤ b ∧ b ≤ 0xDF then
      match r with
      | b2 :: r2 =>
        if 0x80 ≤ b2 ∧ b2 ≤ 0xBF then
          Char.ofNat ((b - 0xC0) * 0x40 + (b2 - 0x80)) :: utf8DecodeGo fuel r2
        else replChar :: utf8DecodeGo fuel r
      | [] => [replChar]
    else if 0xE0 ≤ b ∧ b ≤ 0xEF then
      match r with
      | b2 :: r2 =>
        if (if b = 0xE0 then 0xA0 else 0x80) ≤ b2 ∧
            b2 ≤ (if b = 0xED then 0x9F else 0xBF) then
          match r2 with
          | b3 :: r3 =>
            if 0x80 ≤ b3 ∧ b3 ≤ 0xBF then
              Char.ofNat ((b - 0xE0) * 0x1000 + (b2 - 0x80) * 0x40 + (b3 - 0x80)) ::
                utf8DecodeGo fuel r3
            else replChar :: utf8DecodeGo fuel r2
          | [] => [replChar]
        else replChar :: utf8DecodeGo fuel r
      | [] => [replChar]
    else if 0xF0 ≤ b ∧ b ≤ 0xF4 then
      match r with
      | b2 :: r2 =>
        if (if b = 0xF0 then 0x90 else 0x80) ≤ b2 ∧
            b2 ≤ (if b = 0xF4 then 0x8F else 0xBF) then
          match r2 with
          | b3 :: r3 =>
            if 0x80 ≤ b3 ∧ b3 ≤ 0xBF then
              match r3 with
              | b4 :: r4 =>
                if 0x80 ≤ b4 ∧ b4 ≤ 0xBF then
                  Char.ofNat ((b - 0xF0) * 0x40000 + (b2 - 0x80) * 0x1000 +
                    (b3 - 0x80) * 0x40 + (b4 - 0x80)) :: utf8DecodeGo fuel r4
                else replChar :: utf8DecodeGo fuel r3
              | [] => [replChar]
            else replChar :: utf8DecodeGo fuel r2
          | [] => [replChar]
        else replChar :: utf8DecodeGo fuel r
      | [] => [replChar]
    else replChar :: utf8DecodeGo fuel r

/-- UTF-8 decode a byte sequence. -/
def utf8Decode (bs : List Nat) : List Char := utf8DecodeGo bs.length bs

/-- Decoding of one application/x-www-form-urlencoded name or value: `+` to
space, percent-decode, UTF-8 decode. -/
def formDecode (s : List Char) : List Char :=
  utf8Decode (pctDecode (plusToSpace (strToBytes s)))

/-- `new URLSearchParams(qs).get(name)` (WHATWG urlencoded parsing): strip
one leading `?`, split on `&` skipping empty segments, split each pair at
its first `=` (a missing `=` means an empty value), form-decode names and
values, and return the first value whose decoded name matches; `none` when
the query string is absent or the name does not occur.  Splitting before
decoding at character level agrees with the byte-level algorithm because `&`
and `=` are ASCII and UTF-8 continuation bytes are not. -/
def searchParamGet (qs : Option (List Char)) (nm : List Char) : Option (List Char) :=
  match qs with
  | none => none
  | some q0 =>
    let q := match q0 with
      | '?' :: r => r
      | r => r
    let pairs := (jsSplit '&' q).filter fun p => !p.isEmpty
    let hit := pairs.find? fun p =>
      formDecode (p.takeWhile fun c => c != '=') == nm
    hit.map fun p =>
      let key := p.takeWhile fun c => c != '='
      formDecode (if key.length = p.length then [] else p.drop (key.length + 1))

/-- Extension and query-parameter literals of `processFile`. -/
def extJs : List Char := ".js".toList

/-- The `.ts` extension literal. -/
def extTs : List Char := ".ts".toList

/-- The `.png` extension literal. -/
def extPng : List Char := ".png".toList

/-- The `.jpg` extension literal. -/
def extJpg : List Char := ".jpg".toList

/-- The `.jpeg` extension literal. -/
def extJpeg : List Char := ".jpeg".toList

/-- The `.css` extension literal. -/
def extCss : List Char := ".css".toList

/-- The `worker` query-parameter name. -/
def workerParam : List Char := "worker".toList

/-- The `inline` query-parameter name. -/
def inlineParam : List Char := "inline".toList

/-- The `w` (width) query-parameter name. -/
def wParam : List Char := "w".toList

/-- Abstract collaborators and the configuration of one `bundle()` run.
Functions are the external black boxes of the spec's §6: the filesystem, the
hasher, the CSS compile chain, the image resizer, the script bundler (its
transform-hook module feed, chunk outputs and inline code) and the
pretty-printer. -/
structure BWorld where
  find : List Char
  frontRoot : List Char
  cwd : List Char
  bundleDir : List Char
  assetsDir : List Char
  tempDir : List Char
  frontendDir : List Char
  autoReload : Bool
  reloadCode : List Char
  version : List Char
  templates : List (List Char × Option (List Char))
  builtCode : List Char → List Char
  fileBytes : List Char → Option (List Nat)
  cssOut : List Char → List Char
  resize : List Nat → JsNum → List Nat
  hashBytes : List Nat → Nat
  hashText : List Char → Nat
  hookModules : List (List Char) → List (List Char × List Char)
  chunkName : List Char → List Char
  chunkFiles : List (List Char) → List (List Char × FData)
  inlineCode : List Char → List Char
  prettify : List Char → List Char

/-- `existsSync`, realised by the abstract filesystem. -/
def BWorld.fsExists (w : BWorld) (p : List Char) : Bool := (w.fileBytes p).isSome

/-- The `frontendAlias` object of bundler.ts line 45. -/
def BWorld.aliasCfg (w : BWorld) : AliasCfg := ⟨w.find, w.frontRoot⟩

/-- The configuration slice `generateRoute` reads. -/
def BWorld.routeCfg (w : BWorld) : RouteCfg := ⟨w.cwd, w.bundleDir, w.assetsDir⟩

/-- `path.join(cwd, bundleDir)` — the output root removed at build start. -/
def BWorld.bundleRoot (w : BWorld) : List Char := pathJoin w.cwd w.bundleDir

/-- `processImage` (bundler.ts lines 95-105): read the bytes, and resize
only when the converted `w` query parameter is truthy and not NaN; otherwise
pass the bytes through unchanged.  The read is modelled total (`getD []`)
because every caller guards the path through `resolveAlias`'s existence
check. -/
def processImage (w : BWorld) (resourcePath : List Char) (qs : Option (List Char)) :
    List Nat :=
  let width := jsNumber (searchParamGet qs wParam)
  let buffer := (w.fileBytes resourcePath).getD []
  if jsTruthy width && !jsIsNaN width then w.resize buffer width else buffer

/-- Data hashed for a built artifact (`Bun.hash` accepts both). -/
def BWorld.hashData (w : BWorld) : FData → Nat
  | .bin b => w.hashBytes b
  | .txt s => w.hashText s

/-- Lines 187-194 of `processFile`: when the produced data is truthy, hash
it, derive route and output path, insert the route under the token and write
the artifact. -/
def finishFile (w : BWorld) (st : BSt) (al rp : List Char) (d : FData) : BSt :=
  if dataTruthy d then
    let rt := generateRoute w.routeCfg rp (generateHash (w.hashData d))
    { replacers := mapSet st.replacers al rt.1,
      trace := st.trace ++ [.writeF rt.2 d] }
  else st

/-- Tasks of the recursive processing pipeline: `processFile`, the token
loop shared by `processCss` and the transform hook, `processCss`, the two
modes of `processScript` (the keyed multi-entry build and the inline build),
and the hook's module loop. -/
inductive PTask
  | file (resourceAlias : List Char) (pq : List Char × Option (List Char))
  | toks (ts : List (List Char))
  | css (resourcePath : List Char)
  | scriptMap (input : List (List Char × List Char))
  | scriptInline (entry : List Char)
  | mods (ms : List (List Char × List Char))

/-- The mutually recursive processing pipeline of bundler.ts lines 107-272,
written as one fueled interpreter (every nested call consumes one unit of
fuel, so any fuel bounding the recursion depth reproduces the source
exactly; the bundler itself diverges on reference cycles).
`.file` is `processFile`: membership check first, then dispatch on the
lowercased extension — worker scripts delegate to the keyed script build,
images to `processImage`, stylesheets to `processCss`, unknown extensions
are no-ops.  `.css` is `processCss`: compile externally, scan the output,
process each unseen resolvable token, then substitute the current table into
the CSS text.  `.scriptMap` / `.scriptInline` are `processScript`: run the
transform hook over the build's modules (scan, process, substitute — only
for ids inside the frontend directory), record the chunk writes, and either
route each entry back to its alias or return the bundled code text.
The returned text component is meaningful for `.css` and `.scriptInline`. -/
def pRun (w : BWorld) : Nat → PTask → BSt → BSt × List Char
  | 0, _, st => (st, [])
  | fuel + 1, task, st =>
    match task with
    | .file al pq =>
      if mapHas st.replacers al then (st, [])
      else
        let rp := pq.1
        let qs := pq.2
        let ext := (extnameOf rp).map Char.toLower
        if ext = extJs ∨ ext = extTs then
          if (searchParamGet qs workerParam).isSome then
            let st1 : BSt := { st with trace := st.trace ++ [.work al] }
            ((pRun w fuel (.scriptMap [(rp, al)]) st1).1, [])
          else (st, [])
        else if ext = extPng ∨ ext = extJpg ∨ ext = extJpeg then
          let st1 : BSt := { st with trace := st.trace ++ [.work al] }
          (finishFile w st1 al rp (.bin (processImage w rp qs)), [])
        else if ext = extCss then
          let st1 : BSt := { st with trace := st.trace ++ [.work al] }
          let r := pRun w fuel (.css rp) st1
          (finishFile w r.1 al rp (.txt r.2), [])
        else (st, [])
    | .toks [] => (st, [])
    | .toks (t :: ts) =>
      let st1 :=
        if mapHas st.replacers t then st
        else
          match resolveAlias w.fsExists w.aliasCfg t with
          | some pq => (pRun w fuel (.file t pq) st).1
          | none => st
      pRun w fuel (.toks ts) st1
    | .css rp =>
      let code := w.cssOut rp
      let found := (scanTokens w.find code).map Prod.snd
      let st1 := (pRun w fuel (.toks found) st).1
      let st2 : BSt := { st1 with trace := st1.trace ++ [.substCss st1.replacers] }
      (st2, substituteL st2.replacers code)
    | .scriptMap input =>
      let entries := input.map Prod.fst
      let st1 := (pRun w fuel (.mods (w.hookModules entries)) st).1
      let st2 : BSt := { st1 with trace := st1.trace ++
        ((w.chunkFiles entries).map fun pr =>
          .writeF (pathJoin (pathJoin w.bundleRoot w.assetsDir) pr.1) pr.2) }
      let st3 := input.foldl (fun s2 pr =>
        let rt := '/' :: (w.assetsDir ++ ('/' :: w.chunkName pr.1))
        { s2 with replacers := mapSet s2.replacers pr.2 rt }) st2
      (st3, [])
    | .scriptInline entry =>
      let st1 := (pRun w fuel (.mods (w.hookModules [entry])) st).1
      let st2 : BSt := { st1 with trace := st1.trace ++
        ((w.chunkFiles [entry]).map fun pr =>
          .writeF (pathJoin (pathJoin w.bundleRoot w.tempDir) pr.1) pr.2) }
      (st2, w.inlineCode entry)
    | .mods [] => (st, [])
    | .mods (m :: ms) =>
      let st1 :=
        if strIncludes m.1 ('/' :: (w.frontendDir ++ ['/'])) then
          let found := (scanTokens w.find m.2).map Prod.snd
          let st2 := (pRun w fuel (.toks found) st).1
          { st2 with trace := st2.trace ++ [BEv.substHook st2.replacers] }
        else st
      pRun w fuel (.mods ms) st1

/-- Scratch-module name of a template: the extension occurrence is replaced
by `.version.ext` (bundler.ts line 316). -/
def tempName (w : BWorld) (nm : List Char) : List Char :=
  let ext := extnameOf nm
  replaceFirstL ext ('.' :: (w.version ++ ext)) nm

/-- One template's token loop (bundler.ts lines 336-372): resolve each
scanned reference; inline scripts are bundled immediately and their code
keyed by the full quoted match, plain scripts are deferred into the
`rawScripts` batch keyed by resolved path, everything else goes through
`processFile`. -/
def templateToks (w : BWorld) (fuel : Nat) :
    List (List Char × List Char) → BSt → List (List Char × List Char) →
    BSt × List (List Char × List Char)
  | [], st, raws => (st, raws)
  | (full, tok) :: ms, st, raws =>
    match resolveAlias w.fsExists w.aliasCfg tok with
    | none => templateToks w fuel ms st raws
    | some pq =>
      let rp := pq.1
      let qs := pq.2
      let ext := (extnameOf rp).map Char.toLower
      if ext = extJs ∨ ext = extTs then
        let inl := (searchParamGet qs inlineParam).isSome
        let key := if inl then full else tok
        if mapHas st.replacers key then templateToks w fuel ms st raws
        else if inl then
          let r := pRun w fuel (.scriptInline rp) st
          let st2 : BSt := { r.1 with replacers := mapSet r.1.replacers key r.2 }
          templateToks w fuel ms st2 raws
        else
          templateToks w fuel ms st (mapSet raws rp tok)
      else
        let st1 := (pRun w fuel (.file tok pq) st).1
        templateToks w fuel ms st1 raws

/-- Template loop of bundler.ts lines 314-375 (DISCOVER, COMPILE and RENDER
abstracted into the world's `templates` and `builtCode`): write the
transient compiled module into the scratch directory, scan the rendered
markup and run the token loop; a template whose build produced no output is
skipped.  Returns the final state, the collected `rawHTMLs` and the deferred
`rawScripts`. -/
def templateLoop (w : BWorld) (fuel : Nat) :
    List (List Char × Option (List Char)) → BSt →
    List (List Char × List Char) → List (List Char × List Char) →
    BSt × List (List Char × List Char) × List (List Char × List Char)
  | [], st, htmls, raws => (st, htmls, raws)
  | (nm, rendered) :: ts, st, htmls, raws =>
    match rendered with
    | none => templateLoop w fuel ts st htmls raws
    | some html =>
      let tp := pathJoin (pathJoin w.bundleRoot w.tempDir) (tempName w nm)
      let st1 : BSt := { st with trace := st.trace ++ [.writeF tp (.txt (w.builtCode nm))] }
      let r := templateToks w fuel (scanTokens w.find html) st1 raws
      templateLoop w fuel ts r.1 (mapSet htmls nm html) r.2

/-- The reload-client injection snippet (bundler.ts line 389). -/
def scriptTag (code : List Char) : List Char :=
  "<script>".toList ++ code ++ "</script>".toList

/-- SUBSTITUTE and WRITE (bundler.ts lines 392-409): for each rendered
markup blob, replace every table entry in insertion order, inject the reload
client immediately before the closing head tag when dev auto-reload is on,
pretty-print, and write the `.html` output. -/
def writeHtmls (w : BWorld) (inlines : List (List Char)) :
    List (List Char × List Char) → BSt → BSt
  | [], st => st
  | (nm, html) :: hs, st =>
    let st1 : BSt := { st with trace := st.trace ++ [.substMarkup st.replacers] }
    let out1 := substituteL st1.replacers html
    let out2 :=
      if inlines = [] then out1
      else replaceFirstL ("</head>".toList) (inlines.flatten ++ "</head>".toList) out1
    let out3 := w.prettify out2
    let outName := replaceFirstL (extnameOf nm) (".html".toList) nm
    let st2 : BSt := { st1 with trace := st1.trace ++
      [.writeF (pathJoin w.bundleRoot outName) (.txt out3)] }
    writeHtmls w inlines hs st2

/-- The full `bundle()` pipeline (bundler.ts lines 301-409): remove the
output directory, run the template loop, bundle the deferred non-inline
scripts as one batch, remove the scratch directory, then substitute and
write every rendered markup blob. -/
def bundleRun (w : BWorld) (fuel : Nat) : BSt × List (List Char × List Char) :=
  let st0 : BSt := ⟨[], [.clearDir w.bundleRoot]⟩
  let r1 := templateLoop w fuel w.templates st0 [] []
  let st1 := r1.1
  let htmls := r1.2.1
  let raws := r1.2.2
  let st2 := if raws = [] then st1 else (pRun w fuel (.scriptMap raws) st1).1
  let st3 : BSt := { st2 with trace := st2.trace ++
    [.clearDir (pathJoin w.bundleRoot w.tempDir)] }
  let inlines : List (List Char) := if w.autoReload then [scriptTag w.reloadCode] else []
  (writeHtmls w inlines htmls st3, htmls)

/-- Path `p` lies inside directory `d` (the directory itself included), as
removed by a recursive `rmSync`. -/
def underDir (d p : List Char) : Bool :=
  p == d || decide ((d ++ ['/']) <+: p)

/-- Effect of one build event on an abstract output filesystem. -/
def applyEv (fs : List Char → Option FData) : BEv → (List Char → Option FData)
  | .clearDir d => fun q => if underDir d q then none else fs q
  | .writeF p d => fun q => if q = p then some d else fs q
  | _ => fs

/-- Effect of a whole trace on an abstract output filesystem. -/
def applyEvs (fs : List Char → Option FData) : List BEv → (List Char → Option FData)
  | [] => fs
  | e :: es => applyEvs (applyEv fs e) es

/-- Classifier: markup-substitution event. -/
def isSubstMarkup : BEv → Bool
  | .substMarkup _ => true
  | _ => false

/-- Classifier: token-processing work event. -/
def isWorkEv : BEv → Bool
  | .work _ => true
  | _ => false

/-- Classifier: CSS-substitution event. -/
def isSubstCssEv : BEv → Bool
  | .substCss _ => true
  | _ => false

/-- Classifier: transform-hook substitution event. -/
def isSubstHookEv : BEv → Bool
  | .substHook _ => true
  | _ => false

/-- The keys of the ReplacementTable are duplicate-free. -/
def NodupKeys (m : List (List Char × List Char)) : Prop := (m.map Prod.fst).Nodup

/-- An event list containing no markup-substitution event. -/
def noMarkupEvs (d : List BEv) : Prop := ∀ e ∈ d, isSubstMarkup e = false

theorem noMarkupEvs_append {d1 d2 : List BEv} (h1 : noMarkupEvs d1) (h2 : noMarkupEvs d2) :
    noMarkupEvs (d1 ++ d2) := by
  intro e he
  rcases List.mem_append.mp he with h | h
  · exact h1 e h
  · exact h2 e h

theorem traceExt_trans {t0 t1 t2 d1 d2 : List BEv}
    (h1 : t1 = t0 ++ d1) (h2 : t2 = t1 ++ d2) : t2 = t0 ++ (d1 ++ d2) := by
  rw [h2, h1, List.append_assoc]

/-- `Map.set` leaves the key list unchanged when the key is present and
appends it otherwise. -/
theorem mapSet_keys (m : List (List Char × List Char)) (k v : List Char) :
    (mapSet m k v).map Prod.fst =
      if mapHas m k then m.map Prod.fst else m.map Prod.fst ++ [k] := by
  unfold mapSet
  split_ifs with h
  · rw [List.map_map]
    refine List.map_congr_left ?_
    intro p _
    simp only [Function.comp_apply]
    split_ifs with hp
    · exact ((beq_iff_eq).mp hp).symm
    · rfl
  · simp

/-- A key is absent from the table exactly when `Map.has` is false. -/
theorem mapHas_eq_false_iff (m : List (List Char × List Char)) (k : List Char) :
    mapHas m k = false ↔ k ∉ m.map Prod.fst := by
  unfold mapHas
  simp only [List.any_eq_false, beq_iff_eq, List.mem_map, not_exists]
  constructor
  · rintro h p ⟨hp, hpk⟩
    exact h p hp hpk
  · intro h p hp hpk
    exact h p ⟨hp, hpk⟩

/-- `Map.set` preserves duplicate-freeness of the key list. -/
theorem mapSet_nodupKeys {m : List (List Char × List Char)} {k v : List Char}
    (h : NodupKeys m) : NodupKeys (mapSet m k v) := by
  unfold NodupKeys at *
  rw [mapSet_keys]
  split_ifs with hh
  · exact h
  · have hnk : k ∉ m.map Prod.fst :=
      (mapHas_eq_false_iff m k).mp (by simpa using hh)
    refine ((List.perm_append_singleton k (m.map Prod.fst)).nodup_iff).mpr ?_
    exact List.nodup_cons.mpr ⟨hnk, h⟩

/-- The facade-to-route loop of `processScript` (bundler.ts lines 263-271)
never touches the trace and preserves key uniqueness. -/
theorem foldlRoute_inv (w : BWorld) (input : List (List Char × List Char)) :
    ∀ st : BSt,
      (input.foldl (fun s2 pr =>
        let rt := '/' :: (w.assetsDir ++ ('/' :: w.chunkName pr.1))
        { s2 with replacers := mapSet s2.replacers pr.2 rt }) st).trace = st.trace ∧
      (NodupKeys st.replacers →
        NodupKeys (input.foldl (fun s2 pr =>
          let rt := '/' :: (w.assetsDir ++ ('/' :: w.chunkName pr.1))
          { s2 with replacers := mapSet s2.replacers pr.2 rt }) st).replacers) := by
  induction input with
  | nil => intro st; exact ⟨rfl, fun h => h⟩
  | cons p ps ih =>
    intro st
    refine ⟨(ih _).1, fun h => (ih _).2 (mapSet_nodupKeys h)⟩

/-- The artifact-finishing step appends at most one write event and
preserves key uniqueness. -/
theorem finishFile_inv (w : BWorld) (st : BSt) (al rp : List Char) (d : FData) :
    (∃ dd, (finishFile w st al rp d).trace = st.trace ++ dd ∧ noMarkupEvs dd) ∧
    (NodupKeys st.replacers → NodupKeys (finishFile w st al rp d).replacers) := by
  unfold finishFile
  split_ifs with h
  · exact ⟨⟨_, rfl, by intro e he; simp at he; subst he; rfl⟩,
      fun hn => mapSet_nodupKeys hn⟩
  · exact ⟨⟨[], by simp, by intro e he; simp at he⟩, fun hn => hn⟩

/-- Master invariant of the processing pipeline: every task only appends to
the trace, never emits a markup-substitution event, and preserves
duplicate-freeness of the ReplacementTable keys. -/
theorem pRun_inv (w : BWorld) :
    ∀ (fuel : Nat) (task : PTask) (st : BSt),
      (∃ d, (pRun w fuel task st).1.trace = st.trace ++ d ∧ noMarkupEvs d) ∧
      (NodupKeys st.replacers → NodupKeys (pRun w fuel task st).1.replacers) := by
  intro fuel
  induction fuel with
  | zero =>
    intro task st
    exact ⟨⟨[], by simp [pRun], by intro e he; simp at he⟩, fun h => h⟩
  | succ fuel ih =>
    intro task st
    cases task with
    | file al pq =>
      by_cases h1 : mapHas st.replacers al
      · refine ⟨⟨[], by simp [pRun, h1], by intro e he; simp at he⟩, fun h => by
          simpa [pRun, h1] using h⟩
      by_cases h2 : (extnameOf pq.1).map Char.toLower = extJs ∨
          (extnameOf pq.1).map Char.toLower = extTs
      · by_cases h3 : (searchParamGet pq.2 workerParam).isSome = true
        · have hrec := ih (.scriptMap [(pq.1, al)])
            { st with trace := st.trace ++ [.work al] }
          obtain ⟨⟨d, htr, hnm⟩, hnd⟩ := hrec
          refine ⟨⟨.work al :: d, ?_, ?_⟩, fun h => ?_⟩
          · simp only [pRun, h1, if_false, h2, if_true, h3, Bool.false_eq_true]
            rw [htr]
            simp
          · intro e he
            rcases List.mem_cons.mp he with h | h
            · subst h; rfl
            · exact hnm e h
          · simp only [pRun, h1, if_false, h2, if_true, h3, Bool.false_eq_true]
            exact hnd h
        · refine ⟨⟨[], ?_, by intro e he; simp at he⟩, fun h => ?_⟩
          · simp [pRun, h1, h2, h3]
          · simpa [pRun, h1, h2, h3] using h
      · by_cases h4 : (extnameOf pq.1).map Char.toLower = extPng ∨
            (extnameOf pq.1).map Char.toLower = extJpg ∨
            (extnameOf pq.1).map Char.toLower = extJpeg
        · have hfin := finishFile_inv w { st with trace := st.trace ++ [.work al] }
            al pq.1 (.bin (processImage w pq.1 pq.2))
          obtain ⟨⟨dd, htr, hnm⟩, hnd⟩ := hfin
          refine ⟨⟨.work al :: dd, ?_, ?_⟩, fun h => ?_⟩
          · simp only [pRun, h1, if_false, h2, h4, if_true, Bool.false_eq_true]
            rw [htr]
            simp
          · intro e he
            rcases List.mem_cons.mp he with h | h
            · subst h; rfl
            · exact hnm e h
          · simp only [pRun, h1, if_false, h2, h4, if_true, Bool.false_eq_true]
            exact hnd h
        · by_cases h5 : (extnameOf pq.1).map Char.toLower = extCss
          · have hrec := ih (.css pq.1) { st with trace := st.trace ++ [.work al] }
            obtain ⟨⟨d, htr, hnm⟩, hnd⟩ := hrec
            have hfin := finishFile_inv w
              (pRun w fuel (.css pq.1) { st with trace := st.trace ++ [.work al] }).1
              al pq.1 (.txt (pRun w fuel (.css pq.1)
                { st with trace := st.trace ++ [.work al] }).2)
            obtain ⟨⟨dd, htr2, hnm2⟩, hnd2⟩ := hfin
            have hcjs : ¬ (extCss = extJs ∨ extCss = extTs) := by decide
            have hcimg : ¬ (extCss = extPng ∨ extCss = extJpg ∨ extCss = extJpeg) := by decide
            have heq : pRun w (fuel + 1) (.file al pq) st =
                (finishFile w
                  (pRun w fuel (.css pq.1) { st with trace := st.trace ++ [.work al] }).1
                  al pq.1 (.txt (pRun w fuel (.css pq.1)
                    { st with trace := st.trace ++ [.work al] }).2), []) := by
              simp only [pRun, h1, h2, h4, h5, hcjs, hcimg, if_false, if_true,
                Bool.false_eq_true, eq_self_iff_true]
            refine ⟨⟨.work al :: (d ++ dd), ?_, ?_⟩, fun h => ?_⟩
            · simp only [heq]
              rw [htr2, htr]
              simp
            · intro e he
              rcases List.mem_cons.mp he with h | h
              · subst h; rfl
              · rcases List.mem_append.mp h with h | h
                · exact hnm e h
                · exact hnm2 e h
            · simp only [heq]
              exact hnd2 (hnd h)
          · refine ⟨⟨[], ?_, by intro e he; simp at he⟩, fun h => ?_⟩
            · simp [pRun, h1, h2, h4, h5]
            · simpa [pRun, h1, h2, h4, h5] using h
    | toks ts =>
      cases ts with
      | nil =>
        exact ⟨⟨[], by simp [pRun], by intro e he; simp at he⟩, fun h => by
          simpa [pRun] using h⟩
      | cons t ts =>
        by_cases h1 : mapHas st.replacers t
        · have hrec := ih (.toks ts) st
          obtain ⟨⟨d, htr, hnm⟩, hnd⟩ := hrec
          refine ⟨⟨d, ?_, hnm⟩, fun h => ?_⟩
          · simp only [pRun, h1, if_true]
            exact htr
          · simp only [pRun, h1, if_true]
            exact hnd h
        · rcases hres : resolveAlias w.fsExists w.aliasCfg t with _ | pq
          · have hrec := ih (.toks ts) st
            obtain ⟨⟨d, htr, hnm⟩, hnd⟩ := hrec
            refine ⟨⟨d, ?_, hnm⟩, fun h => ?_⟩
            · simp only [pRun, h1, if_false, hres, Bool.false_eq_true]
              exact htr
            · simp only [pRun, h1, if_false, hres, Bool.false_eq_true]
              exact hnd h
          · have hfil := ih (.file t pq) st
            obtain ⟨⟨d1, htr1, hnm1⟩, hnd1⟩ := hfil
            have hrec := ih (.toks ts) (pRun w fuel (.file t pq) st).1
            obtain ⟨⟨d2, htr2, hnm2⟩, hnd2⟩ := hrec
            refine ⟨⟨d1 ++ d2, ?_, noMarkupEvs_append hnm1 hnm2⟩, fun h => ?_⟩
            · simp only [pRun, h1, if_false, hres, Bool.false_eq_true]
              exact traceExt_trans htr1 htr2
            · simp only [pRun, h1, if_false, hres, Bool.false_eq_true]
              exact hnd2 (hnd1 h)
    | css rp =>
      have hrec := ih (.toks ((scanTokens w.find (w.cssOut rp)).map Prod.snd)) st
      obtain ⟨⟨d, htr, hnm⟩, hnd⟩ := hrec
      refine ⟨⟨d ++ [.substCss (pRun w fuel
          (.toks ((scanTokens w.find (w.cssOut rp)).map Prod.snd)) st).1.replacers], ?_, ?_⟩,
        fun h => ?_⟩
      · simp only [pRun]
        rw [htr]
        simp
      · intro e he
        rcases List.mem_append.mp he with h | h
        · exact hnm e h
        · simp at h
          subst h
          rfl
      · simp only [pRun]
        exact hnd h
    | scriptMap input =>
      have hrec := ih (.mods (w.hookModules (input.map Prod.fst))) st
      obtain ⟨⟨d, htr, hnm⟩, hnd⟩ := hrec
      have hfold := foldlRoute_inv w input
        { (pRun w fuel (.mods (w.hookModules (input.map Prod.fst))) st).1 with
          trace := (pRun w fuel (.mods (w.hookModules (input.map Prod.fst))) st).1.trace ++
            ((w.chunkFiles (input.map Prod.fst)).map fun pr =>
              .writeF (pathJoin (pathJoin w.bundleRoot w.assetsDir) pr.1) pr.2) }
      refine ⟨⟨d ++ ((w.chunkFiles (input.map Prod.fst)).map fun pr =>
          .writeF (pathJoin (pathJoin w.bundleRoot w.assetsDir) pr.1) pr.2), ?_, ?_⟩,
        fun h => ?_⟩
      · simp only [pRun]
        rw [hfold.1]
        show (pRun w fuel (.mods (w.hookModules (input.map Prod.fst))) st).1.trace ++
            ((w.chunkFiles (input.map Prod.fst)).map fun pr =>
              BEv.writeF (pathJoin (pathJoin w.bundleRoot w.assetsDir) pr.1) pr.2) =
          st.trace ++ (d ++ ((w.chunkFiles (input.map Prod.fst)).map fun pr =>
              BEv.writeF (pathJoin (pathJoin w.bundleRoot w.assetsDir) pr.1) pr.2))
        rw [htr, List.append_assoc]
      · refine noMarkupEvs_append hnm ?_
        intro e he
        obtain ⟨pr, _, rfl⟩ := List.mem_map.mp he
        rfl
      · simp only [pRun]
        exact hfold.2 (hnd h)
    | scriptInline entry =>
      have hrec := ih (.mods (w.hookModules [entry])) st
      obtain ⟨⟨d, htr, hnm⟩, hnd⟩ := hrec
      refine ⟨⟨d ++ ((w.chunkFiles [entry]).map fun pr =>
          .writeF (pathJoin (pathJoin w.bundleRoot w.tempDir) pr.1) pr.2), ?_, ?_⟩,
        fun h => ?_⟩
      · simp only [pRun]
        show (pRun w fuel (.mods (w.hookModules [entry])) st).1.trace ++
            ((w.chunkFiles [entry]).map fun pr =>
              BEv.writeF (pathJoin (pathJoin w.bundleRoot w.tempDir) pr.1) pr.2) =
          st.trace ++ (d ++ ((w.chunkFiles [entry]).map fun pr =>
              BEv.writeF (pathJoin (pathJoin w.bundleRoot w.tempDir) pr.1) pr.2))
        rw [htr, List.append_assoc]
      · refine noMarkupEvs_append hnm ?_
        intro e he
        obtain ⟨pr, _, rfl⟩ := List.mem_map.mp he
        rfl
      · simp only [pRun]
        exact hnd h
    | mods ms =>
      cases ms with
      | nil =>
        exact ⟨⟨[], by simp [pRun], by intro e he; simp at he⟩, fun h => by
          simpa [pRun] using h⟩
      | cons m ms =>
        by_cases h1 : strIncludes m.1 ('/' :: (w.frontendDir ++ ['/']))
        · have hrec := ih (.toks ((scanTokens w.find m.2).map Prod.snd)) st
          obtain ⟨⟨d1, htr1, hnm1⟩, hnd1⟩ := hrec
          have hrec2 := ih (.mods ms)
            { (pRun w fuel (.toks ((scanTokens w.find m.2).map Prod.snd)) st).1 with
              trace := (pRun w fuel
                (.toks ((scanTokens w.find m.2).map Prod.snd)) st).1.trace ++
                [BEv.substHook (pRun w fuel
                  (.toks ((scanTokens w.find m.2).map Prod.snd)) st).1.replacers] }
          obtain ⟨⟨d2, htr2, hnm2⟩, hnd2⟩ := hrec2
          refine ⟨⟨(d1 ++ [BEv.substHook (pRun w fuel
              (.toks ((scanTokens w.find m.2).map Prod.snd)) st).1.replacers]) ++ d2,
            ?_, ?_⟩, fun h => ?_⟩
          · simp only [pRun, h1, if_true]
            refine traceExt_trans ?_ htr2
            show (pRun w fuel (.toks ((scanTokens w.find m.2).map Prod.snd)) st).1.trace ++
                [BEv.substHook (pRun w fuel
                  (.toks ((scanTokens w.find m.2).map Prod.snd)) st).1.replacers] =
              st.trace ++ (d1 ++ [BEv.substHook (pRun w fuel
                (.toks ((scanTokens w.find m.2).map Prod.snd)) st).1.replacers])
            rw [htr1, List.append_assoc]
          · refine noMarkupEvs_append (noMarkupEvs_append hnm1 ?_) hnm2
            intro e he
            simp at he
            subst he
            rfl
          · simp only [pRun, h1, if_true]
            exact hnd2 (hnd1 h)
        · have hrec := ih (.mods ms) st
          obtain ⟨⟨d, htr, hnm⟩, hnd⟩ := hrec
          refine ⟨⟨d, ?_, hnm⟩, fun h => ?_⟩
          · simp only [pRun, h1, Bool.false_eq_true, if_false]
            exact htr
          · simp only [pRun, h1, Bool.false_eq_true, if_false]
            exact hnd h

/-- The template token loop only appends non-markup events to the trace and
preserves key uniqueness of the ReplacementTable. -/
theorem templateToks_inv (w : BWorld) (fuel : Nat) :
    ∀ (ms : List (List Char × List Char)) (st : BSt)
      (raws : List (List Char × List Char)),
      (∃ d, (templateToks w fuel ms st raws).1.trace = st.trace ++ d ∧ noMarkupEvs d) ∧
      (NodupKeys st.replacers →
        NodupKeys (templateToks w fuel ms st raws).1.replacers) := by
  intro ms
  induction ms with
  | nil =>
    intro st raws
    exact ⟨⟨[], by simp [templateToks], by intro e he; simp at he⟩, fun h => by
      simpa [templateToks] using h⟩
  | cons m ms ih =>
    intro st raws
    obtain ⟨full, tok⟩ := m
    rcases hres : resolveAlias w.fsExists w.aliasCfg tok with _ | pq
    · obtain ⟨⟨d, htr, hnm⟩, hnd⟩ := ih st raws
      refine ⟨⟨d, ?_, hnm⟩, fun h => ?_⟩
      · simp only [templateToks, hres]
        exact htr
      · simp only [templateToks, hres]
        exact hnd h
    · by_cases h2 : (extnameOf pq.1).map Char.toLower = extJs ∨
          (extnameOf pq.1).map Char.toLower = extTs
      · by_cases hinl : (searchParamGet pq.2 inlineParam).isSome = true
        · by_cases hmem : mapHas st.replacers full = true
          · obtain ⟨⟨d, htr, hnm⟩, hnd⟩ := ih st raws
            refine ⟨⟨d, ?_, hnm⟩, fun h => ?_⟩
            · simp only [templateToks, hres, h2, hinl, if_true, hmem]
              exact htr
            · simp only [templateToks, hres, h2, hinl, if_true, hmem]
              exact hnd h
          · obtain ⟨⟨d1, htr1, hnm1⟩, hnd1⟩ := pRun_inv w fuel (.scriptInline pq.1) st
            obtain ⟨⟨d2, htr2, hnm2⟩, hnd2⟩ := ih
              { (pRun w fuel (.scriptInline pq.1) st).1 with
                replacers := mapSet (pRun w fuel (.scriptInline pq.1) st).1.replacers
                  full (pRun w fuel (.scriptInline pq.1) st).2 } raws
            refine ⟨⟨d1 ++ d2, ?_, noMarkupEvs_append hnm1 hnm2⟩, fun h => ?_⟩
            · simp only [templateToks, hres, h2, hinl, if_true, hmem,
                Bool.false_eq_true, if_false]
              exact traceExt_trans htr1 htr2
            · simp only [templateToks, hres, h2, hinl, if_true, hmem,
                Bool.false_eq_true, if_false]
              exact hnd2 (mapSet_nodupKeys (hnd1 h))
        · by_cases hmem : mapHas st.replacers tok = true
          · obtain ⟨⟨d, htr, hnm⟩, hnd⟩ := ih st raws
            refine ⟨⟨d, ?_, hnm⟩, fun h => ?_⟩
            · simp only [templateToks, hres, h2, hinl, Bool.false_eq_true,
                if_false, if_true, hmem]
              exact htr
            · simp only [templateToks, hres, h2, hinl, Bool.false_eq_true,
                if_false, if_true, hmem]
              exact hnd h
          · obtain ⟨⟨d, htr, hnm⟩, hnd⟩ := ih st (mapSet raws pq.1 tok)
            refine ⟨⟨d, ?_, hnm⟩, fun h => ?_⟩
            · simp only [templateToks, hres, h2, hinl, Bool.false_eq_true,
                if_false, if_true, hmem]
              exact htr
            · simp only [templateToks, hres, h2, hinl, Bool.false_eq_true,
                if_false, if_true, hmem]
              exact hnd h
      · obtain ⟨⟨d1, htr1, hnm1⟩, hnd1⟩ := pRun_inv w fuel (.file tok pq) st
        obtain ⟨⟨d2, htr2, hnm2⟩, hnd2⟩ := ih (pRun w fuel (.file tok pq) st).1 raws
        refine ⟨⟨d1 ++ d2, ?_, noMarkupEvs_append hnm1 hnm2⟩, fun h => ?_⟩
        · simp only [templateToks, hres, h2, if_false]
          exact traceExt_trans htr1 htr2
        · simp only [templateToks, hres, h2, if_false]
          exact hnd2 (hnd1 h)

/-- The template loop only appends non-markup events to the trace and
preserves key uniqueness of the ReplacementTable. -/
theorem templateLoop_inv (w : BWorld) (fuel : Nat) :
    ∀ (ts : List (List Char × Option (List Char))) (st : BSt)
      (htmls raws : List (List Char × List Char)),
      (∃ d, (templateLoop w fuel ts st htmls raws).1.trace = st.trace ++ d ∧
        noMarkupEvs d) ∧
      (NodupKeys st.replacers →
        NodupKeys (templateLoop w fuel ts st htmls raws).1.replacers) := by
  intro ts
  induction ts with
  | nil =>
    intro st htmls raws
    exact ⟨⟨[], by simp [templateLoop], by intro e he; simp at he⟩, fun h => by
      simpa [templateLoop] using h⟩
  | cons t ts ih =>
    intro st htmls raws
    obtain ⟨nm, rendered⟩ := t
    cases rendered with
    | none =>
      obtain ⟨⟨d, htr, hnm⟩, hnd⟩ := ih st htmls raws
      refine ⟨⟨d, ?_, hnm⟩, fun h => ?_⟩
      · simp only [templateLoop]
        exact htr
      · simp only [templateLoop]
        exact hnd h
    | some html =>
      obtain ⟨⟨d1, htr1, hnm1⟩, hnd1⟩ := templateToks_inv w fuel
        (scanTokens w.find html)
        { st with trace := st.trace ++ [.writeF
            (pathJoin (pathJoin w.bundleRoot w.tempDir) (tempName w nm))
            (.txt (w.builtCode nm))] } raws
      obtain ⟨⟨d2, htr2, hnm2⟩, hnd2⟩ := ih
        (templateToks w fuel (scanTokens w.find html)
          { st with trace := st.trace ++ [.writeF
              (pathJoin (pathJoin w.bundleRoot w.tempDir) (tempName w nm))
              (.txt (w.builtCode nm))] } raws).1
        (mapSet htmls nm html)
        (templateToks w fuel (scanTokens w.find html)
          { st with trace := st.trace ++ [.writeF
              (pathJoin (pathJoin w.bundleRoot w.tempDir) (tempName w nm))
              (.txt (w.builtCode nm))] } raws).2
      refine ⟨⟨(BEv.writeF (pathJoin (pathJoin w.bundleRoot w.tempDir) (tempName w nm))
          (.txt (w.builtCode nm)) :: d1) ++ d2, ?_, ?_⟩, fun h => ?_⟩
      · simp only [templateLoop]
        refine traceExt_trans ?_ htr2
        rw [htr1]
        simp
      · refine noMarkupEvs_append ?_ hnm2
        intro e he
        rcases List.mem_cons.mp he with h | h
        · subst h; rfl
        · exact hnm1 e h
      · simp only [templateLoop]
        exact hnd2 (hnd1 h)

/-- The SUBSTITUTE/WRITE phase never mutates the ReplacementTable, appends
only markup-substitution and write events, and every markup substitution it
performs runs against the table as it stood when the phase began. -/
theorem writeHtmls_spec (w : BWorld) (inlines : List (List Char)) :
    ∀ (hs : List (List Char × List Char)) (st : BSt),
      (writeHtmls w inlines hs st).replacers = st.replacers ∧
      ∃ d, (writeHtmls w inlines hs st).trace = st.trace ++ d ∧
        (∀ e ∈ d, isWorkEv e = false ∧ isSubstCssEv e = false ∧ isSubstHookEv e = false) ∧
        (∀ tbl, BEv.substMarkup tbl ∈ d → tbl = st.replacers) := by
  intro hs
  induction hs with
  | nil =>
    intro st
    exact ⟨rfl, ⟨[], by simp [writeHtmls], by intro e he; simp at he,
      by intro tbl h; simp at h⟩⟩
  | cons p hs ih =>
    intro st
    obtain ⟨nm, html⟩ := p
    obtain ⟨hrep2, d2, htr2, hcls2, htbl2⟩ := ih
      { replacers := st.replacers,
        trace := (st.trace ++ [BEv.substMarkup st.replacers]) ++
          [BEv.writeF (pathJoin w.bundleRoot
              (replaceFirstL (extnameOf nm) (".html".toList) nm))
            (.txt (w.prettify
              (if inlines = [] then substituteL st.replacers html
               else replaceFirstL ("</head>".toList)
                 (inlines.flatten ++ "</head>".toList)
                 (substituteL st.replacers html))))] }
    refine ⟨?_, BEv.substMarkup st.replacers ::
        BEv.writeF (pathJoin w.bundleRoot
            (replaceFirstL (extnameOf nm) (".html".toList) nm))
          (.txt (w.prettify
            (if inlines = [] then substituteL st.replacers html
             else replaceFirstL ("</head>".toList)
               (inlines.flatten ++ "</head>".toList)
               (substituteL st.replacers html)))) :: d2, ?_, ?_, ?_⟩
    · simp only [writeHtmls]
      exact hrep2
    · simp only [writeHtmls]
      rw [htr2]
      simp
    · intro e he
      rcases List.mem_cons.mp he with h | h
      · subst h; exact ⟨rfl, rfl, rfl⟩
      rcases List.mem_cons.mp h with h | h
      · subst h; exact ⟨rfl, rfl, rfl⟩
      · exact hcls2 e h
    · intro tbl htbl
      rcases List.mem_cons.mp htbl with h | h
      · exact (BEv.substMarkup.inj h.symm).symm
      rcases List.mem_cons.mp h with h | h
      · exact absurd h (by simp)
      · exact htbl2 tbl h

/-- State right before the SUBSTITUTE phase: output directory cleared,
template loop and deferred script batch drained, scratch directory
cleared. -/
def bundlePre (w : BWorld) (fuel : Nat) : BSt :=
  let st0 : BSt := ⟨[], [.clearDir w.bundleRoot]⟩
  let r1 := templateLoop w fuel w.templates st0 [] []
  let st2 := if r1.2.2 = [] then r1.1 else (pRun w fuel (.scriptMap r1.2.2) r1.1).1
  { st2 with trace := st2.trace ++ [.clearDir (pathJoin w.bundleRoot w.tempDir)] }

theorem bundleRun_eq (w : BWorld) (fuel : Nat) :
    (bundleRun w fuel).1 = writeHtmls w
      (if w.autoReload then [scriptTag w.reloadCode] else [])
      (templateLoop w fuel w.templates ⟨[], [.clearDir w.bundleRoot]⟩ [] []).2.1
      (bundlePre w fuel) := rfl

/-- Before the SUBSTITUTE phase, no markup-substitution event has been
emitted, and the trace starts with the removal of the output directory. -/
theorem bundlePre_noMarkup (w : BWorld) (fuel : Nat) :
    (∀ e ∈ (bundlePre w fuel).trace, isSubstMarkup e = false) ∧
    ∃ rest, (bundlePre w fuel).trace = BEv.clearDir w.bundleRoot :: rest := by
  obtain ⟨dl, hdl, hndl⟩ :=
    (templateLoop_inv w fuel w.templates ⟨[], [.clearDir w.bundleRoot]⟩ [] []).1
  have hst2 : ∃ dp,
      (if (templateLoop w fuel w.templates ⟨[], [.clearDir w.bundleRoot]⟩ [] []).2.2 = []
        then (templateLoop w fuel w.templates ⟨[], [.clearDir w.bundleRoot]⟩ [] []).1
        else (pRun w fuel
          (.scriptMap (templateLoop w fuel w.templates
            ⟨[], [.clearDir w.bundleRoot]⟩ [] []).2.2)
          (templateLoop w fuel w.templates ⟨[], [.clearDir w.bundleRoot]⟩ [] []).1).1).trace =
      (templateLoop w fuel w.templates ⟨[], [.clearDir w.bundleRoot]⟩ [] []).1.trace ++ dp ∧
      noMarkupEvs dp := by
    split_ifs with hraw
    · exact ⟨[], by simp, by intro e he; simp at he⟩
    · exact (pRun_inv w fuel _ _).1
  obtain ⟨dp, hdp, hndp⟩ := hst2
  have htr : (bundlePre w fuel).trace =
      BEv.clearDir w.bundleRoot :: (dl ++ dp ++
        [BEv.clearDir (pathJoin w.bundleRoot w.tempDir)]) := by
    simp only [bundlePre]
    rw [hdp, hdl]
    simp
  constructor
  · intro e he
    rw [htr] at he
    rcases List.mem_cons.mp he with h | h
    · subst h; rfl
    rcases List.mem_append.mp h with h | h
    · rcases List.mem_append.mp h with h | h
      · exact hndl e h
      · exact hndp e h
    · simp at h
      subst h
      rfl
  · exact ⟨_, htr⟩

/-- C1 (amended): the very first action of `processFile` is the membership
check against the ReplacementTable — a token that is already a key returns
immediately, with no work, no trace events and no table change — and the
table always holds at most one entry per token (its key list stays
duplicate-free for the whole build).  The underlying work therefore runs at
most once per token except when a token's own recursive processing
re-encounters it before its entry is inserted (cyclic CSS or script
references), in which case the work re-executes — see the cyclic
counterexample. -/
theorem token_memoization :
    (∀ (w : BWorld) (fuel : Nat) (st : BSt) (al : List Char)
        (pq : List Char × Option (List Char)),
      mapHas st.replacers al = true → pRun w fuel (.file al pq) st = (st, [])) ∧
    (∀ (w : BWorld) (fuel : Nat), NodupKeys (bundleRun w fuel).1.replacers) := by
  constructor
  · intro w fuel st al pq h
    cases fuel with
    | zero => rfl
    | succ fuel => simp [pRun, h]
  · intro w fuel
    have h0 : NodupKeys ([] : List (List Char × List Char)) := by
      simp [NodupKeys]
    have hloop := (templateLoop_inv w fuel w.templates
      ⟨[], [.clearDir w.bundleRoot]⟩ [] []).2 h0
    rw [bundleRun_eq, (writeHtmls_spec w _ _ _).1]
    show NodupKeys (if (templateLoop w fuel w.templates
        ⟨[], [.clearDir w.bundleRoot]⟩ [] []).2.2 = []
      then (templateLoop w fuel w.templates ⟨[], [.clearDir w.bundleRoot]⟩ [] []).1
      else (pRun w fuel (.scriptMap (templateLoop w fuel w.templates
          ⟨[], [.clearDir w.bundleRoot]⟩ [] []).2.2)
        (templateLoop w fuel w.templates
          ⟨[], [.clearDir w.bundleRoot]⟩ [] []).1).1).replacers
    split_ifs with hraw
    · exact hloop
    · exact (pRun_inv w fuel _ _).2 hloop

/-- A minimal concrete world for the concrete build scenarios: trivial
collaborators, constant hasher. -/
def baseWorld : BWorld where
  find := "@".toList
  frontRoot := "/p/frontend".toList
  cwd := "/p".toList
  bundleDir := ".bundle".toList
  assetsDir := "assets".toList
  tempDir := "temp".toList
  frontendDir := "frontend".toList
  autoReload := false
  reloadCode := []
  version := "7".toList
  templates := []
  builtCode := fun _ => "mod".toList
  fileBytes := fun _ => none
  cssOut := fun _ => []
  resize := fun b _ => 0 :: b
  hashBytes := fun _ => 0
  hashText := fun _ => 0
  hookModules := fun _ => []
  chunkName := fun _ => "c.js".toList
  chunkFiles := fun _ => []
  inlineCode := fun _ => "code".toList
  prettify := id

/-- Witness: the membership short-circuit of `token_memoization` at a
concrete populated table. -/
theorem token_memoization_witness :
    mapHas [("@/x.png".toList, "/assets/x.png".toList)] ("@/x.png".toList) = true ∧
    pRun baseWorld 5 (.file ("@/x.png".toList) ("/p/frontend/x.png".toList, none))
        ⟨[("@/x.png".toList, "/assets/x.png".toList)], []⟩ =
      (⟨[("@/x.png".toList, "/assets/x.png".toList)], []⟩, []) :=
  ⟨by decide, token_memoization.1 baseWorld 5
    ⟨[("@/x.png".toList, "/assets/x.png".toList)], []⟩
    ("@/x.png".toList) ("/p/frontend/x.png".toList, none) (by decide)⟩

/-- World with a self-referential stylesheet: the compiled CSS of `a.css`
contains its own alias token. -/
def cycWorld : BWorld :=
  { baseWorld with
    templates := [("index.ts".toList,
      some ("<a href=".toList ++ [dq] ++ "@/a.css".toList ++ [dq] ++ ">".toList))]
    fileBytes := fun p => if p = "/p/frontend/a.css".toList then some [1] else none
    cssOut := fun _ =>
      "x:url(".toList ++ [sq] ++ "@/a.css".toList ++ [sq] ++ ")".toList }

set_option maxRecDepth 10000 in
/-- C1 counterexample: with a stylesheet whose compiled output references
itself, the underlying processing work for the token `@/a.css` starts more
than once within one build — the membership check cannot stop the recursion
because the table entry is inserted only after the nested processing
completes (the real bundler recurses without bound here). -/
theorem token_reprocessed_cx :
    2 ≤ ((bundleRun cycWorld 6).1.trace.filter
      (fun e => e = BEv.work ("@/a.css".toList))).length := by
  decide

/-- C3 (amended): within one build, the markup SUBSTITUTE phase is a hard
barrier — every markup substitution runs strictly after all processing work
(including the deferred script batch) and against the final, fully populated
ReplacementTable.  CSS and transform-hook substitution passes, by contrast,
run mid-PROCESS against the current table (see the counterexample). -/
theorem markup_substitution_barrier :
    ∀ (w : BWorld) (fuel : Nat), ∃ t1 t2,
      (bundleRun w fuel).1.trace = t1 ++ t2 ∧
      (∀ e ∈ t1, isSubstMarkup e = false) ∧
      (∀ e ∈ t2, isWorkEv e = false ∧ isSubstCssEv e = false ∧
        isSubstHookEv e = false) ∧
      (∀ tbl, BEv.substMarkup tbl ∈ (bundleRun w fuel).1.trace →
        tbl = (bundleRun w fuel).1.replacers) := by
  intro w fuel
  obtain ⟨hrep, d, htr, hcls, htbl⟩ := writeHtmls_spec w
    (if w.autoReload then [scriptTag w.reloadCode] else [])
    (templateLoop w fuel w.templates ⟨[], [.clearDir w.bundleRoot]⟩ [] []).2.1
    (bundlePre w fuel)
  obtain ⟨hnomk, rest, hfirst⟩ := bundlePre_noMarkup w fuel
  refine ⟨(bundlePre w fuel).trace, d, ?_, hnomk, hcls, ?_⟩
  · rw [bundleRun_eq]
    exact htr
  · intro tbl hmem
    rw [bundleRun_eq] at hmem ⊢
    rw [htr] at hmem
    rcases List.mem_append.mp hmem with h | h
    · exact absurd (hnomk _ h) (by simp [isSubstMarkup])
    · rw [hrep]
      exact htbl tbl h

/-- Witness: the barrier theorem at a concrete world and fuel. -/
theorem markup_substitution_barrier_witness :
    ∃ t1 t2,
      (bundleRun baseWorld 4).1.trace = t1 ++ t2 ∧
      (∀ e ∈ t1, isSubstMarkup e = false) ∧
      (∀ e ∈ t2, isWorkEv e = false ∧ isSubstCssEv e = false ∧
        isSubstHookEv e = false) ∧
      (∀ tbl, BEv.substMarkup tbl ∈ (bundleRun baseWorld 4).1.trace →
        tbl = (bundleRun baseWorld 4).1.replacers) :=
  markup_substitution_barrier baseWorld 4

/-- World with one template referencing a stylesheet and then an image: the
CSS substitution pass runs while the image token is still unprocessed. -/
def w3World : BWorld :=
  { baseWorld with
    templates := [("index.ts".toList,
      some ("<a href=".toList ++ [dq] ++ "@/a.css".toList ++ [dq] ++
            "><img src=".toList ++ [dq] ++ "@/b.png".toList ++ [dq] ++ ">".toList))]
    fileBytes := fun p =>
      if p = "/p/frontend/a.css".toList then some [1]
      else if p = "/p/frontend/b.png".toList then some [2] else none
    cssOut := fun _ => "body".toList }

set_option maxRecDepth 10000 in
/-- C3 counterexample: in this build a substitution pass over a CSS blob runs
against the empty ReplacementTable, while the table at the end of PROCESS
holds two entries — so text is substituted against a partially populated
table, before PROCESS has drained. -/
theorem substitution_before_drain_cx :
    BEv.substCss [] ∈ (bundleRun w3World 8).1.trace ∧
    ((bundleRun w3World 8).1.replacers.map Prod.fst) =
      ["@/a.css".toList, "@/b.png".toList] := by
  exact ⟨by decide, by decide⟩

/-- C9 (amended): image bytes are handed to the external resize collaborator
exactly when the `w` query parameter is present and its form-decoded value
converts under JavaScript `Number()` to a truthy number — nonzero and not
NaN, which includes hexadecimal, fractional, exponent and `Infinity`
literals; with an absent `w`, a zero conversion, or a NaN conversion the
bytes pass through unchanged.  In both cases `processFile` hashes the
resulting bytes, writes the artifact at the derived output path and inserts
the route into the ReplacementTable under the token. -/
theorem image_processing :
    (∀ (w : BWorld) (rp : List Char) (qs : Option (List Char)) (n : JsNum),
      jsNumber (searchParamGet qs wParam) = n → jsTruthy n = true →
      processImage w rp qs = w.resize ((w.fileBytes rp).getD []) n) ∧
    (∀ (w : BWorld) (rp : List Char) (qs : Option (List Char)),
      jsTruthy (jsNumber (searchParamGet qs wParam)) = false →
      processImage w rp qs = (w.fileBytes rp).getD []) ∧
    (∀ (w : BWorld) (fuel : Nat) (st : BSt) (al rp : List Char)
        (qs : Option (List Char)),
      mapHas st.replacers al = false →
      ((extnameOf rp).map Char.toLower = extPng ∨
        (extnameOf rp).map Char.toLower = extJpg ∨
        (extnameOf rp).map Char.toLower = extJpeg) →
      pRun w (fuel + 1) (.file al (rp, qs)) st =
        ({ replacers := mapSet st.replacers al
            (generateRoute w.routeCfg rp
              (generateHash (w.hashBytes (processImage w rp qs)))).1,
           trace := (st.trace ++ [.work al]) ++ [.writeF
            (generateRoute w.routeCfg rp
              (generateHash (w.hashBytes (processImage w rp qs)))).2
            (.bin (processImage w rp qs))] }, [])) := by
  refine ⟨?_, ?_, ?_⟩
  · intro w rp qs n hn ht
    have hnan : jsIsNaN n = false := by
      cases n <;> simp_all [jsTruthy, jsIsNaN]
    simp [processImage, hn, ht, hnan]
  · intro w rp qs h
    simp [processImage, h]
  · intro w fuel st al rp qs hmem himg
    have hjs : ¬ ((extnameOf rp).map Char.toLower = extJs ∨
        (extnameOf rp).map Char.toLower = extTs) := by
      rcases himg with h | h | h <;> rw [h] <;> decide
    have hmem' : ¬ (mapHas st.replacers al = true) := by simp [hmem]
    simp [pRun, hmem', hjs, himg, finishFile, dataTruthy, BWorld.hashData]

set_option maxRecDepth 40000 in
/-- Witness: the resize clause of `image_processing` at a hexadecimal width
(`Number("0x10")` is 16) and at a percent-encoded width (`w=%35` form-decodes
to `5`), and the artifact/route clause at a concrete image token. -/
theorem image_processing_witness :
    jsNumber (searchParamGet (some ("w=0x10".toList)) wParam) = JsNum.fin 16 ∧
    processImage w3World ("/p/frontend/b.png".toList) (some ("w=0x10".toList)) =
      w3World.resize ((w3World.fileBytes ("/p/frontend/b.png".toList)).getD [])
        (jsNumber (searchParamGet (some ("w=0x10".toList)) wParam)) ∧
    searchParamGet (some ("w=%35".toList)) wParam = some ("5".toList) ∧
    processImage w3World ("/p/frontend/b.png".toList) (some ("w=%35".toList)) =
      w3World.resize ((w3World.fileBytes ("/p/frontend/b.png".toList)).getD [])
        (jsNumber (searchParamGet (some ("w=%35".toList)) wParam)) ∧
    mapHas ([] : List (List Char × List Char)) ("@/b.png".toList) = false ∧
    pRun w3World 3 (.file ("@/b.png".toList) ("/p/frontend/b.png".toList, none))
        ⟨[], []⟩ =
      ({ replacers := mapSet [] ("@/b.png".toList)
          (generateRoute w3World.routeCfg ("/p/frontend/b.png".toList)
            (generateHash (w3World.hashBytes
              (processImage w3World ("/p/frontend/b.png".toList) none)))).1,
         trace := (([] : List BEv) ++ [.work ("@/b.png".toList)]) ++ [.writeF
          (generateRoute w3World.routeCfg ("/p/frontend/b.png".toList)
            (generateHash (w3World.hashBytes
              (processImage w3World ("/p/frontend/b.png".toList) none)))).2
          (.bin (processImage w3World ("/p/frontend/b.png".toList) none))] }, []) :=
  ⟨by decide,
   image_processing.1 w3World ("/p/frontend/b.png".toList)
     (some ("w=0x10".toList)) _ rfl (by decide),
   by decide,
   image_processing.1 w3World ("/p/frontend/b.png".toList)
     (some ("w=%35".toList)) _ rfl (by decide),
   by decide,
   image_processing.2.2 w3World 2 ⟨[], []⟩ ("@/b.png".toList)
     ("/p/frontend/b.png".toList) none (by decide) (by decide)⟩

set_option maxRecDepth 40000 in
/-- C9 counterexample: with query `w=0` the width parameter is present and
numeric, yet the bytes are not passed to the resize collaborator —
JavaScript truthiness makes `Number("0")` falsy, so the image passes through
unchanged (the resize collaborator here would have prepended a byte). -/
theorem image_w0_not_resized_cx :
    searchParamGet (some ("w=0".toList)) wParam = some ("0".toList) ∧
    jsNumber (searchParamGet (some ("w=0".toList)) wParam) = JsNum.fin 0 ∧
    processImage w3World ("/p/frontend/b.png".toList) (some ("w=0".toList)) = [2] ∧
    w3World.resize [2] (JsNum.fin 0) = [0, 2] := by
  exact ⟨by decide, by decide, by decide, by decide⟩

/-- Anything present after applying a trace was either written by the trace
or survived from the initial filesystem. -/
theorem applyEvs_write_origin :
    ∀ (evs : List BEv) (fs : List Char → Option FData) (p : List Char) (d : FData),
      applyEvs fs evs p = some d → BEv.writeF p d ∈ evs ∨ fs p = some d := by
  intro evs
  induction evs with
  | nil => intro fs p d h; exact Or.inr h
  | cons e es ih =>
    intro fs p d h
    rcases ih (applyEv fs e) p d h with hin | hbase
    · exact Or.inl (List.mem_cons_of_mem e hin)
    · cases e with
      | clearDir dir =>
        simp only [applyEv] at hbase
        split_ifs at hbase with hu
        · exact Or.inr hbase
      | writeF p' d' =>
        simp only [applyEv] at hbase
        split_ifs at hbase with hp
        · have hd := Option.some.inj hbase
          subst hd
          subst hp
          exact Or.inl (List.mem_cons_self _ _)
        · exact Or.inr hbase
      | work t => exact Or.inr hbase
      | substCss t => exact Or.inr hbase
      | substHook t => exact Or.inr hbase
      | substMarkup t => exact Or.inr hbase

/-- C10: every `bundle()` run removes the whole output directory before
anything else (the first trace event is the recursive removal of the output
root), and afterwards the output tree contains only files written by that
very build: whatever pre-existing filesystem the build's events are applied
to, any path below the output root that is present at the end was written by
an event of this build — no stale artifact survives. -/
theorem bundle_output_fresh :
    (∀ (w : BWorld) (fuel : Nat), ∃ rest,
      (bundleRun w fuel).1.trace = BEv.clearDir w.bundleRoot :: rest) ∧
    (∀ (w : BWorld) (fuel : Nat) (init : List Char → Option FData)
        (p : List Char) (d : FData),
      underDir w.bundleRoot p = true →
      applyEvs init (bundleRun w fuel).1.trace p = some d →
      BEv.writeF p d ∈ (bundleRun w fuel).1.trace) := by
  have hfirst : ∀ (w : BWorld) (fuel : Nat), ∃ rest,
      (bundleRun w fuel).1.trace = BEv.clearDir w.bundleRoot :: rest := by
    intro w fuel
    obtain ⟨hrep, d, htr, _, _⟩ := writeHtmls_spec w
      (if w.autoReload then [scriptTag w.reloadCode] else [])
      (templateLoop w fuel w.templates ⟨[], [.clearDir w.bundleRoot]⟩ [] []).2.1
      (bundlePre w fuel)
    obtain ⟨hnom, rest, hpre⟩ := bundlePre_noMarkup w fuel
    refine ⟨rest ++ d, ?_⟩
    rw [bundleRun_eq, htr, hpre]
    simp
  refine ⟨hfirst, ?_⟩
  intro w fuel init p d hp happ
  obtain ⟨rest, hr⟩ := hfirst w fuel
  rw [hr] at happ
  have happ' : applyEvs (applyEv init (BEv.clearDir w.bundleRoot)) rest p = some d :=
    happ
  rcases applyEvs_write_origin rest _ p d happ' with hin | hbase
  · rw [hr]
    exact List.mem_cons_of_mem _ hin
  · simp only [applyEv] at hbase
    rw [if_pos hp] at hbase
    exact absurd hbase (by simp)

/-- World writing a single HTML output, for the freshness witness. -/
def w10World : BWorld :=
  { baseWorld with
    templates := [("index.ts".toList, some ("<html></html>".toList))] }

set_option maxRecDepth 10000 in
/-- Witness: `bundle_output_fresh` at a concrete world, a pre-existing
filesystem that has data everywhere, and the build's HTML output path. -/
theorem bundle_output_fresh_witness :
    underDir w10World.bundleRoot ("/p/.bundle/index.html".toList) = true ∧
    applyEvs (fun _ => some (.bin [9])) (bundleRun w10World 4).1.trace
      ("/p/.bundle/index.html".toList) = some (.txt ("<html></html>".toList)) ∧
    BEv.writeF ("/p/.bundle/index.html".toList) (.txt ("<html></html>".toList)) ∈
      (bundleRun w10World 4).1.trace :=
  ⟨by decide, by decide,
    bundle_output_fresh.2 w10World 4 (fun _ => some (.bin [9]))
      ("/p/.bundle/index.html".toList) (.txt ("<html></html>".toList))
      (by decide) (by decide)⟩

/-- Generalised prefix-split (same statement as `prefAppendCases`, for
arbitrary element types). -/
theorem prefAppendCasesG {α : Type} {k a b : List α} (h : k <+: a ++ b) :
    k <+: a ∨ ∃ k2, k = a ++ k2 ∧ k2 <+: b := by
  induction a generalizing k with
  | nil => exact Or.inr ⟨k, rfl, by simpa using h⟩
  | cons c a' ih =>
    cases k with
    | nil => exact Or.inl ⟨c :: a', rfl⟩
    | cons d k' =>
      rw [List.cons_append] at h
      have hdc := List.cons_prefix_cons.mp h
      rcases ih hdc.2 with h1 | ⟨k2, hk2, hk2p⟩
      · exact Or.inl (List.cons_prefix_cons.mpr ⟨hdc.1, h1⟩)
      · refine Or.inr ⟨k2, ?_, hk2p⟩
        rw [List.cons_append, hdc.1, hk2]

/-- Dev-loop configuration: whether a backend is configured (the only value
`backendLanguage` admits is `"rust"`) and whether dev auto-reload is on. -/
structure DevCfg where
  backendRust : Bool
  autoReload : Bool

/-- Abstract per-iteration inputs of the dev loop: the two directory
hash-set snapshots (`generateHashes` over the frontend tree, and over the
bundle output plus backend tree), whether `bundle()` succeeds, the pid of a
newly spawned backend, and how many failed reachability probes precede
success (`none`: the backend never becomes reachable, so the awaited
`notify()` never returns). -/
structure DevWorld where
  frontHashes : Nat → Finset (List Char)
  backHashes : Nat → Finset (List Char)
  buildOk : Nat → Bool
  spawnPid : Nat → Nat
  pingsUntilUp : Nat → Option Nat

/-- Observable events of the dev loop, in program order. -/
inductive DevEv
  | rebuild (ok : Bool)
  | abortGen (gen : Nat)
  | kill (pid : Nat)
  | confirmDead (pid : Nat)
  | spawn (pid : Nat)
  | notifyStart (gen : Nat)
  | publish (gen : Nat) (rev : Nat)
  | notifyEnd (gen : Nat)
deriving DecidableEq

/-- Dev-loop state across iterations: the two baselines, the backend process
handle, the generation of the current `autoReloadController`, the reload
revision counter, the event trace, and whether the loop is blocked forever
inside an awaited `notify()`. -/
structure DevSt where
  prevFront : Finset (List Char)
  prevBack : Finset (List Char)
  server : Option Nat
  gen : Nat
  rev : Nat
  trace : List DevEv
  stuck : Bool

/-- Initial dev-loop state (bundler.ts lines 441, 536-539). -/
def devInit : DevSt := ⟨∅, ∅, none, 0, 0, [], false⟩

/-- `next.symmetricDifference(previous).size > 0` on JS Sets of hash
strings. -/
def setChanged (next prev : Finset (List Char)) : Bool :=
  decide (0 < ((next \ prev) ∪ (prev \ next)).card)

/-- Events emitted by one dev-loop iteration (bundler.ts lines 541-603):
optionally a rebuild, then — when a backend is configured and either tree
changed — the abort of the current controller generation, the kill and
confirmed-dead poll of the running backend, the spawn of the new instance,
and the awaited `notify()`: its fresh generation starts, and it either
publishes the next revision once a ping succeeds or never returns. -/
def devIterEvs (cfg : DevCfg) (w : DevWorld) (i : Nat) (st : DevSt) : List DevEv :=
  let changedF := setChanged (w.frontHashes i) st.prevFront
  let rebuildEvs : List DevEv := if changedF then [.rebuild (w.buildOk i)] else []
  if cfg.backendRust then
    let changedB := setChanged (w.backHashes i) st.prevBack
    if changedF || changedB then
      let killEvs : List DevEv :=
        match st.server with
        | some p => [.kill p, .confirmDead p]
        | none => []
      let notifyEvs : List DevEv :=
        if cfg.autoReload then
          match w.pingsUntilUp i with
          | some _ => [.notifyStart (st.gen + 1), .publish (st.gen + 1) st.rev,
              .notifyEnd (st.gen + 1)]
          | none => [.notifyStart (st.gen + 1)]
        else []
      rebuildEvs ++ [.abortGen st.gen] ++ killEvs ++ [.spawn (w.spawnPid i)] ++ notifyEvs
    else rebuildEvs
  else rebuildEvs

/-- One dev-loop iteration (state part): both snapshots become the new
baselines unconditionally, the server handle is replaced only after the
kill/confirmed-dead sequence, `notify()` replaces the controller (new
generation) and bumps the revision on publish; if the backend never becomes
reachable the loop blocks inside the awaited `notify()` (`stuck`). -/
def devStep (cfg : DevCfg) (w : DevWorld) (i : Nat) (st : DevSt) : DevSt :=
  let changedF := setChanged (w.frontHashes i) st.prevFront
  let base : DevSt :=
    { st with
      prevFront := w.frontHashes i
      trace := st.trace ++ devIterEvs cfg w i st }
  if cfg.backendRust then
    let changedB := setChanged (w.backHashes i) st.prevBack
    let base2 : DevSt := { base with prevBack := w.backHashes i }
    if changedF || changedB then
      let base3 : DevSt := { base2 with server := some (w.spawnPid i) }
      if cfg.autoReload then
        match w.pingsUntilUp i with
        | some _ => { base3 with gen := st.gen + 1, rev := st.rev + 1 }
        | none => { base3 with gen := st.gen + 1, stuck := true }
      else base3
    else base2
  else base

/-- The dev loop run for `n` iterations; a stuck state never advances (the
loop is blocked awaiting `notify()`). -/
def devRun (cfg : DevCfg) (w : DevWorld) : Nat → DevSt
  | 0 => devInit
  | n + 1 =>
    let st := devRun cfg w n
    if st.stuck then st else devStep cfg w n st

/-- The dev-iteration events never contain a rebuild when the frontend
snapshot is unchanged, and contain exactly one when it changed. -/
theorem devStep_trace (cfg : DevCfg) (w : DevWorld) (i : Nat) (st : DevSt) :
    (devStep cfg w i st).trace = st.trace ++ devIterEvs cfg w i st := by
  simp only [devStep]
  split_ifs <;> rcases w.pingsUntilUp i with _ | k <;> rfl

/-- C8: on every dev-loop iteration, a rebuild is invoked exactly when the
symmetric difference between the freshly computed frontend hash set and the
previous baseline is nonempty; and the new snapshots become the baselines
for the next iteration regardless of the build outcome (`buildOk` arbitrary)
— the frontend baseline always, the backend baseline whenever a backend is
configured. -/
theorem change_gated_rebuild (cfg : DevCfg) (w : DevWorld) (i : Nat) (st : DevSt) :
    (DevEv.rebuild (w.buildOk i) ∈ devIterEvs cfg w i st ↔
      ((w.frontHashes i \ st.prevFront) ∪ (st.prevFront \ w.frontHashes i)).Nonempty) ∧
    (devStep cfg w i st).prevFront = w.frontHashes i ∧
    (cfg.backendRust = true → (devStep cfg w i st).prevBack = w.backHashes i) ∧
    (devStep cfg w i st).trace = st.trace ++ devIterEvs cfg w i st := by
  refine ⟨?_, ?_, ?_, devStep_trace cfg w i st⟩
  · have hiff : setChanged (w.frontHashes i) st.prevFront = true ↔
        ((w.frontHashes i \ st.prevFront) ∪ (st.prevFront \ w.frontHashes i)).Nonempty := by
      unfold setChanged
      rw [decide_eq_true_iff, Finset.card_pos]
    rw [← hiff]
    by_cases hc : setChanged (w.frontHashes i) st.prevFront = true
    · rw [iff_true_intro hc, iff_true]
      simp only [devIterEvs, hc, if_true]
      split_ifs <;> simp
    · rw [iff_false_intro hc, iff_false]
      simp only [devIterEvs, hc, Bool.false_eq_true, if_false]
      intro hmem
      rcases hsrv : st.server with _ | p <;>
        rcases hping : w.pingsUntilUp i with _ | k <;>
        split_ifs at hmem <;>
        simp [hsrv, hping] at hmem
  · simp only [devStep]
    split_ifs <;> rcases w.pingsUntilUp i with _ | k <;> rfl
  · intro hb
    simp only [devStep, hb, if_true]
    split_ifs <;> rcases w.pingsUntilUp i with _ | k <;> rfl

/-- Witness: `change_gated_rebuild` at a concrete iteration whose frontend
snapshot differs from the baseline. -/
theorem change_gated_rebuild_witness :
    (DevEv.rebuild true ∈ devIterEvs ⟨false, false⟩
      ⟨fun _ => {("x:1".toList)}, fun _ => ∅, fun _ => true, fun _ => 1, fun _ => some 0⟩
      0 devInit ↔
      ((({("x:1".toList)} : Finset (List Char)) \ devInit.prevFront) ∪
        (devInit.prevFront \ {("x:1".toList)})).Nonempty) ∧
    (devStep ⟨false, false⟩
      ⟨fun _ => {("x:1".toList)}, fun _ => ∅, fun _ => true, fun _ => 1, fun _ => some 0⟩
      0 devInit).prevFront = {("x:1".toList)} ∧
    ((⟨false, false⟩ : DevCfg).backendRust = true →
      (devStep ⟨false, false⟩
        ⟨fun _ => {("x:1".toList)}, fun _ => ∅, fun _ => true, fun _ => 1, fun _ => some 0⟩
        0 devInit).prevBack = ∅) ∧
    (devStep ⟨false, false⟩
      ⟨fun _ => {("x:1".toList)}, fun _ => ∅, fun _ => true, fun _ => 1, fun _ => some 0⟩
      0 devInit).trace = devInit.trace ++ devIterEvs ⟨false, false⟩
      ⟨fun _ => {("x:1".toList)}, fun _ => ∅, fun _ => true, fun _ => 1, fun _ => some 0⟩
      0 devInit :=
  change_gated_rebuild ⟨false, false⟩
    ⟨fun _ => {("x:1".toList)}, fun _ => ∅, fun _ => true, fun _ => 1, fun _ => some 0⟩
    0 devInit

/-- Effect of one dev event on the set of live backend pids: a spawn adds,
a confirmed death removes, everything else is neutral. -/
def aliveStep (s : Finset Nat) : DevEv → Finset Nat
  | .spawn p => insert p s
  | .confirmDead p => s.erase p
  | _ => s

/-- Live-pid set after a list of events. -/
def aliveFold : Finset Nat → List DevEv → Finset Nat
  | s, [] => s
  | s, e :: es => aliveFold (aliveStep s e) es

theorem aliveFold_append (s : Finset Nat) (t u : List DevEv) :
    aliveFold s (t ++ u) = aliveFold (aliveFold s t) u := by
  induction t generalizing s with
  | nil => rfl
  | cons e t ih =>
    simp only [List.cons_append, aliveFold]
    exact ih _

/-- At every point along an event list the live set stays at most a
singleton (recursively phrased). -/
def AliveOkR : Finset Nat → List DevEv → Prop
  | s, [] => s.card ≤ 1
  | s, e :: es => s.card ≤ 1 ∧ AliveOkR (aliveStep s e) es

theorem aliveOkR_head {s : Finset Nat} {evs : List DevEv} (h : AliveOkR s evs) :
    s.card ≤ 1 := by
  cases evs with
  | nil => exact h
  | cons e es => exact h.1

theorem aliveOkR_append {s : Finset Nat} {t u : List DevEv} (h1 : AliveOkR s t)
    (h2 : AliveOkR (aliveFold s t) u) : AliveOkR s (t ++ u) := by
  induction t generalizing s with
  | nil => exact h2
  | cons e t ih =>
    exact ⟨h1.1, ih h1.2 h2⟩

/-- `AliveOkR` is exactly the prefix-wise cardinality bound. -/
theorem aliveOkR_iff (s : Finset Nat) (evs : List DevEv) :
    AliveOkR s evs ↔ ∀ t, t <+: evs → (aliveFold s t).card ≤ 1 := by
  induction evs generalizing s with
  | nil =>
    constructor
    · intro h t ht
      rw [List.prefix_nil.mp ht]
      exact h
    · intro h
      exact h [] ⟨[], rfl⟩
  | cons e es ih =>
    constructor
    · intro h t ht
      cases t with
      | nil => exact h.1
      | cons e' t' =>
        obtain ⟨he, ht'⟩ := List.cons_prefix_cons.mp ht
        subst he
        exact ((ih (aliveStep s e')).mp h.2) t' ht'
    · intro h
      refine ⟨by simpa [aliveFold] using h [] ⟨e :: es, rfl⟩, (ih (aliveStep s e)).mpr ?_⟩
      intro t ht
      exact h (e :: t) (List.cons_prefix_cons.mpr ⟨rfl, ht⟩)

/-- The live set corresponding to a backend handle. -/
def serverSet : Option Nat → Finset Nat
  | none => ∅
  | some p => {p}

/-- One dev-loop iteration keeps at most one backend alive at every
intermediate point and ends with exactly the new handle alive: the kill and
confirmed-dead poll of the old instance strictly precede the spawn of the
new one. -/
theorem devIter_alive (cfg : DevCfg) (w : DevWorld) (i : Nat) (st : DevSt) :
    AliveOkR (serverSet st.server) (devIterEvs cfg w i st) ∧
    aliveFold (serverSet st.server) (devIterEvs cfg w i st) =
      serverSet (devStep cfg w i st).server := by
  rcases hsrv : st.server with _ | p <;>
    by_cases hc : setChanged (w.frontHashes i) st.prevFront = true <;>
    by_cases hb : cfg.backendRust = true <;>
    by_cases hcb : setChanged (w.backHashes i) st.prevBack = true <;>
    by_cases har : cfg.autoReload = true <;>
    rcases hping : w.pingsUntilUp i with _ | k <;>
    simp [devIterEvs, devStep, AliveOkR, aliveFold, aliveStep, serverSet,
      hsrv, hc, hb, hcb, har, hping]

/-- C7: at most one backend process is alive at any observed instant of a
dev run — after any prefix of the trace, the set of spawned but not yet
confirmed-dead pids has at most one element (a kill is always followed by
the confirmed-dead poll before the next spawn). -/
theorem single_live_backend :
    ∀ (cfg : DevCfg) (w : DevWorld) (n : Nat) (t : List DevEv),
      t <+: (devRun cfg w n).trace → (aliveFold ∅ t).card ≤ 1 := by
  have main : ∀ (cfg : DevCfg) (w : DevWorld) (n : Nat),
      AliveOkR ∅ (devRun cfg w n).trace ∧
      aliveFold ∅ (devRun cfg w n).trace = serverSet (devRun cfg w n).server := by
    intro cfg w n
    induction n with
    | zero => exact ⟨by simp [devRun, devInit, AliveOkR], rfl⟩
    | succ n ih =>
      by_cases hstuck : (devRun cfg w n).stuck = true
      · simpa [devRun, hstuck] using ih
      · have hstep : devRun cfg w (n + 1) = devStep cfg w n (devRun cfg w n) := by
          simp [devRun, hstuck]
        rw [hstep, devStep_trace]
        constructor
        · refine aliveOkR_append ih.1 ?_
          rw [ih.2]
          exact (devIter_alive cfg w n _).1
        · rw [aliveFold_append, ih.2]
          exact (devIter_alive cfg w n _).2
  intro cfg w n t ht
  exact ((aliveOkR_iff ∅ (devRun cfg w n).trace).mp (main cfg w n).1) t ht

/-- A concrete dev configuration with a backend and auto-reload. -/
def cfgDev : DevCfg := ⟨true, true⟩

/-- A concrete dev world: the frontend changes at iteration 0, the backend
is immediately reachable. -/
def wDev : DevWorld :=
  ⟨fun _ => {("a:1".toList)}, fun _ => ∅, fun _ => true, fun i => i + 10,
    fun _ => some 0⟩

/-- Witness: the single-live-backend bound on the full trace of a concrete
two-iteration dev run. -/
theorem single_live_backend_witness :
    (aliveFold ∅ (devRun cfgDev wDev 2).trace).card ≤ 1 :=
  single_live_backend cfgDev wDev 2 (devRun cfgDev wDev 2).trace
    (List.prefix_refl _)

/-- One iteration's `notify()` is atomic: a wait that ends publishes its own
generation's revision within the same iteration, and a wait that starts
either ends within the same iteration or is the iteration's final event with
the loop permanently blocked. -/
theorem devIter_notify (cfg : DevCfg) (w : DevWorld) (i : Nat) (st : DevSt) :
    (∀ g, DevEv.notifyEnd g ∈ devIterEvs cfg w i st →
      DevEv.publish g st.rev ∈ devIterEvs cfg w i st) ∧
    (∀ g, DevEv.notifyStart g ∈ devIterEvs cfg w i st →
      DevEv.notifyEnd g ∈ devIterEvs cfg w i st ∨
      (g = st.gen + 1 ∧ (devStep cfg w i st).stuck = true ∧
        (devStep cfg w i st).gen = g ∧
        ∃ e', devIterEvs cfg w i st = e' ++ [DevEv.notifyStart g])) := by
  rcases hsrv : st.server with _ | p <;>
    by_cases hc : setChanged (w.frontHashes i) st.prevFront = true <;>
    by_cases hb : cfg.backendRust = true <;>
    by_cases hcb : setChanged (w.backHashes i) st.prevBack = true <;>
    by_cases har : cfg.autoReload = true <;>
    rcases hping : w.pingsUntilUp i with _ | k <;>
    constructor <;>
    intro g hg <;>
    simp [devIterEvs, hsrv, hc, hb, hcb, har, hping] at hg ⊢ <;>
    first
      | exact absurd hg (by simp)
      | (rcases hg with rfl | rfl <;>
          simp [devStep, hsrv, hc, hb, hcb, har, hping] <;>
          try (first
            | exact ⟨[DevEv.rebuild (w.buildOk i), DevEv.abortGen st.gen,
                DevEv.spawn (w.spawnPid i)], rfl⟩
            | exact ⟨[DevEv.abortGen st.gen, DevEv.spawn (w.spawnPid i)], rfl⟩
            | exact ⟨[DevEv.rebuild (w.buildOk i), DevEv.abortGen st.gen,
                DevEv.kill p, DevEv.confirmDead p, DevEv.spawn (w.spawnPid i)], rfl⟩
            | exact ⟨[DevEv.abortGen st.gen, DevEv.kill p, DevEv.confirmDead p,
                DevEv.spawn (w.spawnPid i)], rfl⟩))
      | (subst hg
         try simp [devStep, hsrv, hc, hb, hcb, har, hping]
         all_goals try (first
            | exact ⟨[DevEv.rebuild (w.buildOk i), DevEv.abortGen st.gen,
                DevEv.spawn (w.spawnPid i)], rfl⟩
            | exact ⟨[DevEv.abortGen st.gen, DevEv.spawn (w.spawnPid i)], rfl⟩
            | exact ⟨[DevEv.rebuild (w.buildOk i), DevEv.abortGen st.gen,
                DevEv.kill p, DevEv.confirmDead p, DevEv.spawn (w.spawnPid i)], rfl⟩
            | exact ⟨[DevEv.abortGen st.gen, DevEv.kill p, DevEv.confirmDead p,
                DevEv.spawn (w.spawnPid i)], rfl⟩))
      | (try (first
            | exact ⟨[DevEv.rebuild (w.buildOk i), DevEv.abortGen st.gen,
                DevEv.spawn (w.spawnPid i)], rfl⟩
            | exact ⟨[DevEv.abortGen st.gen, DevEv.spawn (w.spawnPid i)], rfl⟩
            | exact ⟨[DevEv.rebuild (w.buildOk i), DevEv.abortGen st.gen,
                DevEv.kill p, DevEv.confirmDead p, DevEv.spawn (w.spawnPid i)], rfl⟩
            | exact ⟨[DevEv.abortGen st.gen, DevEv.kill p, DevEv.confirmDead p,
                DevEv.spawn (w.spawnPid i)], rfl⟩))

/-- C6 (the abort tokens are dead code): because the dev loop awaits
`notify()` inline, a reload-notify wait is never pending when the watcher
loop runs again — every wait that starts either completes within its own
iteration, publishing its own generation's revision before any further
change can be observed, or never returns, in which case it is the very last
event of the run and the loop is permanently blocked on it; in no run is an
in-flight wait abandoned by a later iteration, so the per-generation
`abort()` never cancels anything. -/
theorem notify_wait_never_cancelled :
    ∀ (cfg : DevCfg) (w : DevWorld) (n : Nat),
      (∀ g, DevEv.notifyEnd g ∈ (devRun cfg w n).trace →
        ∃ r, DevEv.publish g r ∈ (devRun cfg w n).trace) ∧
      (∀ g, DevEv.notifyStart g ∈ (devRun cfg w n).trace →
        DevEv.notifyEnd g ∈ (devRun cfg w n).trace ∨
        ((devRun cfg w n).stuck = true ∧ g = (devRun cfg w n).gen ∧
          ∃ t', (devRun cfg w n).trace = t' ++ [DevEv.notifyStart g])) := by
  intro cfg w n
  induction n with
  | zero => simp [devRun, devInit]
  | succ n ih =>
    by_cases hstuck : (devRun cfg w n).stuck = true
    · have heq : devRun cfg w (n + 1) = devRun cfg w n := by
        simp [devRun, hstuck]
      rw [heq]
      exact ih
    · have hstep : devRun cfg w (n + 1) = devStep cfg w n (devRun cfg w n) := by
        simp [devRun, hstuck]
      rw [hstep, devStep_trace]
      constructor
      · intro g hg
        rcases List.mem_append.mp hg with h | h
        · obtain ⟨r, hr⟩ := ih.1 g h
          exact ⟨r, List.mem_append.mpr (Or.inl hr)⟩
        · exact ⟨(devRun cfg w n).rev,
            List.mem_append.mpr (Or.inr ((devIter_notify cfg w n _).1 g h))⟩
      · intro g hg
        rcases List.mem_append.mp hg with h | h
        · rcases ih.2 g h with h2 | ⟨hs, _⟩
          · exact Or.inl (List.mem_append.mpr (Or.inl h2))
          · exact absurd hs hstuck
        · rcases (devIter_notify cfg w n _).2 g h with h2 | ⟨hgen, hstk, hgeq, e', he'⟩
          · exact Or.inl (List.mem_append.mpr (Or.inr h2))
          · refine Or.inr ⟨hstk, hgeq.symm, (devRun cfg w n).trace ++ e', ?_⟩
            rw [he', List.append_assoc]

/-- A concrete dev world for the notify-atomicity witness: the frontend
changes and the backend answers its first health ping. -/
def wDevN : DevWorld :=
  ⟨fun _ => {("a:1".toList)}, fun _ => ∅, fun _ => true, fun i => i + 10,
    fun _ => some 0⟩

/-- Witness: in a concrete run a notify wait ends and its generation's
revision is published in the same run. -/
theorem notify_wait_never_cancelled_witness :
    DevEv.notifyEnd 1 ∈ (devRun cfgDev wDevN 1).trace ∧
    ∃ r, DevEv.publish 1 r ∈ (devRun cfgDev wDevN 1).trace :=
  ⟨by decide, (notify_wait_never_cancelled cfgDev wDevN 1).1 1 (by decide)⟩

end TinyBundler
